import Mathlib

/-!
Verification of the MiniFlow dataflow-graph engine (miniflow.py).

Nodes are identified by their construction index (Python object identity is
stable, and every node is created exactly once, in program order).  A graph is
the list of node declarations in construction order: each declaration gives the
node kind and the list of indices of its inbound nodes.  `outbound_nodes` lists
are not stored: in the Python code they are built by `Node.__init__`, which
appends the new node to `n.outbound_nodes` for every `n` in its inbound list,
so for a fully constructed program the outbound list of node `a` is determined
by the inbound lists (see `outboundOf` and, operationally, `construct`).

Numeric values are modelled as rationals; the logistic kernel of `Sigmoid` is a
real-valued collaborator and is abstracted as a function parameter where it is
needed.  Python faults are modelled with an explicit error type.
-/
inductive NodeKind where
  | input
  | add
  | mul
  | sigmoid
deriving DecidableEq, Repr

structure NodeDef where
  kind : NodeKind
  inbound : List Nat
deriving DecidableEq, Repr

abbrev Graph := List NodeDef

def defaultNodeDef : NodeDef := ⟨NodeKind.input, []⟩

def nodeOf (g : Graph) (i : Nat) : NodeDef := g.getD i defaultNodeDef

def kindOf (g : Graph) (i : Nat) : NodeKind := (nodeOf g i).kind

def inboundOf (g : Graph) (i : Nat) : List Nat := (nodeOf g i).inbound

/-- The outbound list of node `a`: during construction each node `j` appends
itself to `a.outbound_nodes` once per occurrence of `a` in `j`'s inbound list,
in increasing construction order `j`. -/
def outboundOf (g : Graph) (a : Nat) : List Nat :=
  (List.range g.length).flatMap fun j => List.replicate ((inboundOf g j).count a) j

/-! ### Graph well-formedness and reachability -/
/-- Every inbound reference names a node of the program (bounded form, decidable). -/
def closedG (g : Graph) : Prop :=
  ∀ j < g.length, ∀ i ∈ inboundOf g j, i < g.length

/-- `Input.__init__` always passes an empty inbound list to `Node.__init__`. -/
def inputsClosed (g : Graph) : Prop :=
  ∀ i < g.length, kindOf g i = NodeKind.input → inboundOf g i = []

/-- No node's inbound list repeats a producer, i.e. each (producer, consumer)
edge has multiplicity one; the spec's data model keeps `outbound` as a set. -/
def nodupEdges (g : Graph) : Prop :=
  ∀ j < g.length, (inboundOf g j).Nodup

/-- Acyclicity witnessed by a rank function increasing along every edge. -/
def acyclicRank (g : Graph) (rank : Nat → Nat) : Prop :=
  ∀ m < g.length, ∀ n ∈ inboundOf g m, rank n < rank m

instance (g : Graph) : Decidable (closedG g) := by
  unfold closedG; infer_instance

instance (g : Graph) : Decidable (inputsClosed g) := by
  unfold inputsClosed; infer_instance

instance (g : Graph) : Decidable (nodupEdges g) := by
  unfold nodupEdges; infer_instance

instance (g : Graph) (rank : Nat → Nat) : Decidable (acyclicRank g rank) := by
  unfold acyclicRank; infer_instance

/-- Walks along outbound edges, recorded with the final step exposed. -/
inductive Steps (g : Graph) : Nat → Nat → Prop where
  | refl (n : Nat) : Steps g n n
  | tail {a b c : Nat} : Steps g a b → c ∈ outboundOf g b → Steps g a c

/-- Reachability from the feed keys along `outbound_nodes`, as explored by the
first loop of `topological_sort`. -/
def Reach (g : Graph) (keys : List Nat) (n : Nat) : Prop :=
  ∃ k ∈ keys, Steps g k n

/-! ### Faults and mutable node state -/
/-- Python exceptions raised by the modelled code paths. -/
inductive MFError where
  | notImplementedError
  | nameError
  | typeError
  | keyError
  | attributeError
  | indexError
deriving DecidableEq, Repr

/-- The mutable per-node state: `value` slots and `gradients` dictionaries,
indexed by node. `none` models Python `None` / a missing dictionary entry. -/
structure MFState where
  value : Nat → Option ℚ
  gradients : Nat → Nat → Option ℚ

def initState : MFState := ⟨fun _ => none, fun _ _ => none⟩

/-- `feed_dict[n]`: association-list lookup by key. -/
def feedLookup (feed : List (Nat × ℚ)) (n : Nat) : Option ℚ :=
  (feed.find? fun p => p.1 = n).map Prod.snd

/-! ### Operational wiring: `Node.__init__`

`Node.__init__` stores the inbound list and then runs
`for n in self.inbound_nodes: n.outbound_nodes.append(self)`.
`Mul.__init__(self, *input)` evaluates the undefined name `inputs` while
calling `Node.__init__`, so constructing any `Mul` raises `NameError` before
any wiring happens. -/
structure NodeRec where
  inbound : List Nat
  outbound : List Nat
deriving DecidableEq, Repr

def emptyRec : NodeRec := ⟨[], []⟩

def appendOut (recs : List NodeRec) (i j : Nat) : List NodeRec :=
  recs.set i ⟨(recs.getD i emptyRec).inbound, (recs.getD i emptyRec).outbound ++ [j]⟩

def wireNode (recs : List NodeRec) (nd : NodeDef) : List NodeRec :=
  nd.inbound.foldl (fun rs i => appendOut rs i recs.length) (recs ++ [⟨nd.inbound, []⟩])

def construct (g : Graph) : Except MFError (List NodeRec) :=
  g.foldlM (fun recs nd =>
    match nd.kind with
    | NodeKind.mul => Except.error MFError.nameError
    | _ => Except.ok (wireNode recs nd)) []

/-- Construction order: every inbound reference is to an already-built node. -/
def constructible (g : Graph) : Prop :=
  ∀ j < g.length, ∀ i ∈ inboundOf g j, i < j

def noMulG (g : Graph) : Prop := ∀ nd ∈ g, nd.kind ≠ NodeKind.mul

instance (g : Graph) : Decidable (constructible g) := by
  unfold constructible; infer_instance

instance (g : Graph) : Decidable (noMulG g) := by
  unfold noMulG; infer_instance

/-- The fully constructed environment determined by the program. -/
def buildRecs (g : Graph) : List NodeRec :=
  (List.range g.length).map fun a => ⟨inboundOf g a, outboundOf g a⟩

/-! ### Forward execution -/
/-- `sum([n.value for n in self.inbound_nodes])`: Python `sum` folds from `0`,
and adding `None` raises `TypeError`. -/
def pySum (l : List (Option ℚ)) : Except MFError ℚ :=
  l.foldlM (fun acc v =>
    match v with
    | none => Except.error MFError.typeError
    | some x => Except.ok (acc + x)) 0

/-- One `forward()` call, dispatched on the node's runtime class.

* `Input`: the `forward` defined inside `Input.__init__` is a local function
  of the constructor and is never bound as an attribute, so the call resolves
  to `Node.forward`, which raises `NotImplementedError`.
* `Add`: sums the inbound values into `self.value`.
* `Mul`: `Mul.forward` evaluates the undefined global `reduce`, raising
  `NameError` (a `Mul` cannot even be constructed, see `construct`).
* `Sigmoid`: applies the logistic kernel `σf` to the single inbound value; an
  empty inbound list would fault on `inbound_nodes[0]`, and a `None` operand
  faults inside the arithmetic of `_sigmoid`. -/
def forwardNode (σf : ℚ → ℚ) (g : Graph) (i : Nat) (s : MFState) : Except MFError MFState :=
  match kindOf g i with
  | NodeKind.input => Except.error MFError.notImplementedError
  | NodeKind.add =>
    match pySum ((inboundOf g i).map s.value) with
    | Except.error e => Except.error e
    | Except.ok v => Except.ok { s with value := Function.update s.value i (some v) }
  | NodeKind.mul => Except.error MFError.nameError
  | NodeKind.sigmoid =>
    match (inboundOf g i).head? with
    | none => Except.error MFError.indexError
    | some n0 =>
      match s.value n0 with
      | none => Except.error MFError.typeError
      | some v => Except.ok { s with value := Function.update s.value i (some (σf v)) }

/-- The loop of `forward_pass`: call `forward()` on each node in order.  A
raise propagates, leaving the state as mutated so far (a failing `forward`
call mutates nothing itself). -/
def runForwards (σf : ℚ → ℚ) (g : Graph) : List Nat → MFState → MFState × Option MFError
  | [], s => (s, none)
  | n :: ns, s =>
    match forwardNode σf g n s with
    | Except.error e => (s, some e)
    | Except.ok s' => runForwards σf g ns s'

/-- `forward_pass(output_node, sorted_nodes)`: returns `output_node.value`
(or the fault raised), paired with the node state after the call. -/
def forward_pass (σf : ℚ → ℚ) (g : Graph) (order : List Nat) (outputNode : Nat)
    (s : MFState) : Except MFError (Option ℚ) × MFState :=
  match runForwards σf g order s with
  | (s', none) => (Except.ok (s'.value outputNode), s')
  | (s', some e) => (Except.error e, s')

/-- `Sigmoid.backward`: the dict comprehension
`{n: np.zeros_like(n.like) for n in self.inbound_nodes}` evaluates `n.like`,
and nodes have no attribute `like`, so with the single inbound node the
constructor guarantees, the call raises `AttributeError` before writing any
gradient.  (With an impossible empty inbound list the comprehension is empty
and the consumer loop would fault on `self.inbound_nodes[0]` after reading
`n.gradients[self]`.)  Every other modelled class inherits `Node.backward`,
which raises `NotImplementedError`. -/
def backwardNode (g : Graph) (i : Nat) (s : MFState) : Except MFError MFState :=
  match kindOf g i with
  | NodeKind.sigmoid =>
    match inboundOf g i with
    | [] =>
      match outboundOf g i with
      | [] => Except.ok { s with gradients := Function.update s.gradients i (fun _ => none) }
      | c :: _ =>
        match s.gradients c i with
        | none => Except.error MFError.keyError
        | some _ => Except.error MFError.indexError
    | _ :: _ => Except.error MFError.attributeError
  | _ => Except.error MFError.notImplementedError

/-- `sgd_update(trainables, learning_rate)`: for each trainable, read
`t.gradients[t]` (`KeyError` if absent), then `t.value -= learning_rate * p`
(`TypeError` if `t.value` is `None`). -/
def sgd_update (trainables : List Nat) (learning_rate : ℚ) (s : MFState) :
    Except MFError MFState :=
  trainables.foldlM (fun st t =>
    match st.gradients t t with
    | none => Except.error MFError.keyError
    | some p =>
      match st.value t with
      | none => Except.error MFError.typeError
      | some v =>
        Except.ok { st with value := Function.update st.value t (some (v - learning_rate * p)) }) s

/-! ### `topological_sort`, phase 1: discovery of the reachable subgraph

`G = {}`; `nodes = [n for n in input_nodes]`; pop from the front, register the
node and its outbound edges, and append every outbound node to the queue
unconditionally (`nodes.append(m)` has no membership guard).  A node absent
from `G` owns empty edge sets, so `G` is a domain plus two edge-set maps. -/
structure DiscG where
  dom : Finset Nat
  inS : Nat → Finset Nat
  outS : Nat → Finset Nat

def initDiscG : DiscG := ⟨∅, fun _ => ∅, fun _ => ∅⟩

def addEdge (G : DiscG) (n m : Nat) : DiscG :=
  { dom := insert m G.dom
    inS := Function.update G.inS m (insert n (G.inS m))
    outS := Function.update G.outS n (insert m (G.outS n)) }

def discProcess (g : Graph) (G : DiscG) (n : Nat) : DiscG :=
  (outboundOf g n).foldl (fun G' m => addEdge G' n m) { G with dom := insert n G.dom }

def discover (g : Graph) : Nat → List Nat → DiscG → Option DiscG
  | _, [], G => some G
  | 0, _ :: _, _ => none
  | fuel + 1, n :: rest, G => discover g fuel (rest ++ outboundOf g n) (discProcess g G n)

/-! ### `topological_sort`, phase 2: Kahn's elimination loop

`S = set(input_nodes)`; pop a node (Python's arbitrary `set.pop()` is modelled
by taking the least element), feed it if it is an `Input`, append it to `L`,
and retire each outbound edge with `G[n]['out'].remove(m)` and
`G[m]['in'].remove(n)` — each dictionary access and each `set.remove` raises
`KeyError` when its target is absent. -/
structure KahnSt where
  S : Finset Nat
  G : DiscG
  L : List Nat
  st : MFState

def retire (n : Nat) : List Nat → DiscG → Finset Nat → Except MFError (DiscG × Finset Nat)
  | [], G, S => Except.ok (G, S)
  | m :: ms, G, S =>
    if n ∈ G.dom then
      if m ∈ G.outS n then
        if m ∈ G.dom then
          if n ∈ G.inS m then
            let G' : DiscG :=
              { dom := G.dom
                inS := Function.update G.inS m ((G.inS m).erase n)
                outS := Function.update G.outS n ((G.outS n).erase m) }
            retire n ms G' (if (G.inS m).erase n = ∅ then insert m S else S)
          else Except.error MFError.keyError
        else Except.error MFError.keyError
      else Except.error MFError.keyError
    else Except.error MFError.keyError

def kahnValueStep (g : Graph) (feed : List (Nat × ℚ)) (n : Nat) (ms : MFState) :
    Except MFError MFState :=
  if kindOf g n = NodeKind.input then
    match feedLookup feed n with
    | none => Except.error MFError.keyError
    | some v => Except.ok { ms with value := Function.update ms.value n (some v) }
  else Except.ok ms

def kahnRun (g : Graph) (feed : List (Nat × ℚ)) :
    Nat → KahnSt → Option (Except MFError (List Nat × MFState))
  | 0, st => if st.S.Nonempty then none else some (Except.ok (st.L, st.st))
  | fuel + 1, st =>
    if hne : st.S.Nonempty then
      match kahnValueStep g feed (st.S.min' hne) st.st with
      | Except.error e => some (Except.error e)
      | Except.ok ms =>
        match retire (st.S.min' hne) (outboundOf g (st.S.min' hne)) st.G
            (st.S.erase (st.S.min' hne)) with
        | Except.error e => some (Except.error e)
        | Except.ok (G', S') => kahnRun g feed fuel ⟨S', G', st.L ++ [st.S.min' hne], ms⟩
    else some (Except.ok (st.L, st.st))

/-- `topological_sort(feed_dict)` itself.  The `fuel` argument pays for loop
iterations of both phases; `none` means the fuel ran out, which on acyclic
graphs never happens for fuel at least `sortFuel` (and on graphs with a
reachable cycle happens for every fuel: the discovery loop diverges). -/
def topological_sort (g : Graph) (feed : List (Nat × ℚ)) (s : MFState) (fuel : Nat) :
    Option (Except MFError (List Nat × MFState)) :=
  match discover g fuel (feed.map Prod.fst) initDiscG with
  | none => none
  | some Gf => kahnRun g feed fuel ⟨(feed.map Prod.fst).toFinset, Gf, [], s⟩

/-! ### Fuel bounds and measures -/
def listMax : List Nat → Nat
  | [] => 0
  | a :: l => max a (listMax l)

def maxOutDeg (g : Graph) : Nat :=
  listMax ((List.range g.length).map fun n => (outboundOf g n).length)

def maxRankB (g : Graph) (rank : Nat → Nat) : Nat :=
  listMax ((List.range g.length).map rank)

/-- Strictly decreasing potential of the discovery queue on acyclic graphs. -/
def qMeasure (g : Graph) (rank : Nat → Nat) (q : List Nat) : Nat :=
  (q.map fun x => (maxOutDeg g + 2) ^ (maxRankB g rank + 1 - rank x)).sum

def totalIn (g : Graph) : Nat :=
  ∑ j ∈ Finset.range g.length, (inboundOf g j).length

/-- Strictly decreasing potential of the Kahn loop. -/
def kahnMeasure (st : KahnSt) : Nat :=
  st.S.card + ∑ m ∈ st.G.dom, (st.G.inS m).card

/-- Fuel sufficient for both phases on an acyclic graph. -/
def sortFuel (g : Graph) (rank : Nat → Nat) (feed : List (Nat × ℚ)) : Nat :=
  max (qMeasure g rank (feed.map Prod.fst)) ((feed.map Prod.fst).length + totalIn g)

/-! ### Cycles and divergence -/
def onCycle (g : Graph) (n : Nat) : Prop :=
  ∃ m, m ∈ outboundOf g n ∧ Steps g m n

def reachesCycle (g : Graph) (n : Nat) : Prop :=
  ∃ c, Steps g n c ∧ onCycle g c

/-- The call never returns: for every fuel the loops are still running. -/
def sortDiverges (g : Graph) (feed : List (Nat × ℚ)) (s : MFState) : Prop :=
  ∀ fuel, topological_sort g feed s fuel = none

/-- `a` occurs, and `b` occurs later than that occurrence of `a`. -/
def precedes (L : List Nat) (a b : Nat) : Prop :=
  ∃ l₁ l₂ l₃, L = l₁ ++ a :: l₂ ++ b :: l₃

/-! ### Result projections (for evaluating concrete runs) -/
def sortOrder (g : Graph) (feed : List (Nat × ℚ)) (s : MFState) (fuel : Nat) :
    Option (Except MFError (List Nat)) :=
  (topological_sort g feed s fuel).map (Except.map Prod.fst)

/-- `topological_sort` followed by `forward_pass` on a designated output node,
projected to the returned value. -/
def runGraphForward (σf : ℚ → ℚ) (g : Graph) (feed : List (Nat × ℚ)) (outputNode : Nat)
    (s : MFState) (fuel : Nat) : Option (Except MFError (Option ℚ)) :=
  (topological_sort g feed s fuel).map fun r =>
    r.bind fun p => (forward_pass σf g p.1 outputNode p.2).1

/-! ### Concrete programs -/
/-- nn.py: `x, y, z = Input(), Input(), Input(); Add(x, y, z); Mul(x, y, z)`. -/
def nnProgram : Graph :=
  [⟨NodeKind.input, []⟩, ⟨NodeKind.input, []⟩, ⟨NodeKind.input, []⟩,
   ⟨NodeKind.add, [0, 1, 2]⟩, ⟨NodeKind.mul, [0, 1, 2]⟩]

/-- The same graph up to the `Add` node only. -/
def addProgram : Graph :=
  [⟨NodeKind.input, []⟩, ⟨NodeKind.input, []⟩, ⟨NodeKind.input, []⟩,
   ⟨NodeKind.add, [0, 1, 2]⟩]

/-- `feed_dict = {x: 4, y: 5, z: 10}`. -/
def nnFeed : List (Nat × ℚ) := [(0, 4), (1, 5), (2, 10)]

/-- A graph whose reachable subgraph has a cycle (a manually wired back-edge):
node 1 reads nodes 0 and 2, node 2 reads node 1. -/
def cycleProgram : Graph :=
  [⟨NodeKind.input, []⟩, ⟨NodeKind.add, [0, 2]⟩, ⟨NodeKind.add, [1]⟩]

def cycleFeed : List (Nat × ℚ) := [(0, 4)]

/-- `x = Input(); Add(x, x)`: a duplicated (producer, consumer) edge. -/
def dupProgram : Graph := [⟨NodeKind.input, []⟩, ⟨NodeKind.add, [0, 0]⟩]

def dupFeed : List (Nat × ℚ) := [(0, 4)]

/-- A concrete stand-in for the real-valued logistic kernel. -/
def idKernel : ℚ → ℚ := fun q => q

/-! ### Invariants -/
/-- Invariant of the discovery loop. -/
structure DInv (g : Graph) (keys : List Nat) (q : List Nat) (G : DiscG) : Prop where
  qReach : ∀ x ∈ q, Reach g keys x
  qLt : ∀ x ∈ q, x < g.length
  domReach : ∀ x ∈ G.dom, Reach g keys x
  domLt : ∀ x ∈ G.dom, x < g.length
  keysIn : ∀ k ∈ keys, k ∈ G.dom ∨ k ∈ q
  outSub : ∀ n, G.outS n ⊆ (outboundOf g n).toFinset
  domFull : ∀ n ∈ G.dom, (∀ m ∈ outboundOf g n, m ∈ G.outS n) ∨ n ∈ q
  inOut : ∀ n m, m ∈ G.outS n ↔ n ∈ G.inS m
  edgeDom : ∀ n m, m ∈ G.outS n → n ∈ G.dom ∧ m ∈ G.dom
  undisc : ∀ n, n ∉ G.dom → G.outS n = ∅

/-- What discovery has produced once its queue is empty. -/
structure DFinal (g : Graph) (keys : List Nat) (G : DiscG) : Prop where
  dom_iff : ∀ x, x ∈ G.dom ↔ Reach g keys x
  domLt : ∀ x ∈ G.dom, x < g.length
  out_eq : ∀ n ∈ G.dom, G.outS n = (outboundOf g n).toFinset
  out_empty : ∀ n, n ∉ G.dom → G.outS n = ∅
  in_iff : ∀ n m, n ∈ G.inS m ↔ n ∈ G.dom ∧ m ∈ outboundOf g n

/-- Invariant of the Kahn loop, relative to the discovery result `Gf` and the
state `s0` the sort was started in. -/
structure KInv (g : Graph) (feed : List (Nat × ℚ)) (Gf : DiscG) (s0 : MFState)
    (st : KahnSt) : Prop where
  nodupL : st.L.Nodup
  LsubR : ∀ x ∈ st.L, x ∈ Gf.dom
  Seq : ∀ x, x ∈ st.S ↔ x ∈ Gf.dom ∧ x ∉ st.L ∧ ∀ p ∈ Gf.inS x, p ∈ st.L
  outDone : ∀ n ∈ st.L, st.G.outS n = ∅
  outTodo : ∀ n, n ∉ st.L → st.G.outS n = Gf.outS n
  inEq : ∀ m p, p ∈ st.G.inS m ↔ p ∈ Gf.inS m ∧ p ∉ st.L
  orderOK : ∀ m ∈ st.L, ∀ p ∈ Gf.inS m, precedes st.L p m
  domEq : st.G.dom = Gf.dom
  valEq : ∀ x, st.st.value x =
    if x ∈ st.L ∧ kindOf g x = NodeKind.input then feedLookup feed x else s0.value x
  gradEq : st.st.gradients = s0.gradients

instance {ε α : Type} [DecidableEq ε] [DecidableEq α] : DecidableEq (Except ε α)
  | Except.ok x, Except.ok y =>
    if h : x = y then isTrue (by rw [h]) else isFalse (fun hc => h (Except.ok.inj hc))
  | Except.ok _, Except.error _ => isFalse (fun hc => Except.noConfusion hc)
  | Except.error _, Except.ok _ => isFalse (fun hc => Except.noConfusion hc)
  | Except.error e, Except.error e' =>
    if h : e = e' then isTrue (by rw [h]) else isFalse (fun hc => h (Except.error.inj hc))

/-- `x = Input(); Sigmoid(x)`. -/
def sigProgram : Graph := [⟨NodeKind.input, []⟩, ⟨NodeKind.sigmoid, [0]⟩]

/-- A state with a value and a self-gradient at node 0, as after a backward
pass over a trainable. -/
def sgdState : MFState :=
  ⟨fun x => if x = 0 then some 3 else none,
   fun a b => if a = 0 ∧ b = 0 then some 2 else none⟩

/-! ## Theorems -/

theorem inboundOf_of_le {g : Graph} {j : Nat} (h : g.length ≤ j) :
    inboundOf g j = [] := by
  unfold inboundOf nodeOf
  rw [List.getD_eq_default _ _ h]
  rfl

theorem kindOf_of_le {g : Graph} {j : Nat} (h : g.length ≤ j) :
    kindOf g j = NodeKind.input := by
  unfold kindOf nodeOf
  rw [List.getD_eq_default _ _ h]
  rfl

theorem mem_outboundOf {g : Graph} {a m : Nat} :
    m ∈ outboundOf g a ↔ m < g.length ∧ a ∈ inboundOf g m := by
  unfold outboundOf
  simp only [List.mem_flatMap, List.mem_range, List.mem_replicate]
  constructor
  · rintro ⟨j, hj, hcount, rfl⟩
    exact ⟨hj, List.count_pos_iff.mp (Nat.pos_of_ne_zero hcount)⟩
  · rintro ⟨hm, hmem⟩
    exact ⟨m, hm, Nat.pos_iff_ne_zero.mp (List.count_pos_iff.mpr hmem), rfl⟩

theorem count_bind_range (f : Nat → List Nat) (m : Nat) :
    ∀ n : Nat, ((List.range n).flatMap f).count m = ((List.range n).map (fun j => (f j).count m)).sum := by
  intro n
  induction n with
  | zero => simp
  | succ k ih =>
    rw [List.range_succ]
    simp [List.count_append, ih]

theorem count_outboundOf (g : Graph) (a m : Nat) :
    (outboundOf g a).count m =
      if m < g.length then (inboundOf g m).count a else 0 := by
  unfold outboundOf
  rw [count_bind_range]
  induction g.length with
  | zero => simp
  | succ k ih =>
    rw [List.range_succ]
    simp only [List.map_append, List.sum_append, List.map_cons, List.map_nil, List.sum_cons,
      List.sum_nil]
    rw [ih]
    by_cases hmk : m < k
    · have hne : m ≠ k := Nat.ne_of_lt hmk
      rw [if_pos hmk, if_pos (Nat.lt_succ_of_lt hmk)]
      simp [List.count_replicate, hne.symm]
    · by_cases hmk' : m = k
      · subst hmk'
        rw [if_neg hmk, if_pos (Nat.lt_succ_self m)]
        simp [List.count_replicate]
      · rw [if_neg hmk, if_neg (show ¬m < k + 1 by omega)]
        simp [List.count_replicate, hmk', show k ≠ m from fun h => hmk' h.symm]

theorem outboundOf_lt {g : Graph} {a m : Nat} (h : m ∈ outboundOf g a) :
    m < g.length := (mem_outboundOf.mp h).1

theorem acyclicRank_edge {g : Graph} {rank : Nat → Nat} (h : acyclicRank g rank)
    {n m : Nat} (hm : m ∈ outboundOf g n) : rank n < rank m := by
  rcases mem_outboundOf.mp hm with ⟨hlt, hmem⟩
  exact h m hlt n hmem

theorem Reach.base {g : Graph} {keys : List Nat} {k : Nat} (h : k ∈ keys) :
    Reach g keys k := ⟨k, h, Steps.refl k⟩

theorem Reach.step {g : Graph} {keys : List Nat} {n m : Nat}
    (h : Reach g keys n) (hm : m ∈ outboundOf g n) : Reach g keys m := by
  rcases h with ⟨k, hk, st⟩
  exact ⟨k, hk, Steps.tail st hm⟩

/-- A reachable node with an empty inbound list is itself a feed key: it cannot
be the target of any discovered edge. -/
theorem reach_empty_inbound_mem {g : Graph} {keys : List Nat} {n : Nat}
    (h : Reach g keys n) (hemp : inboundOf g n = []) : n ∈ keys := by
  rcases h with ⟨k, hk, st⟩
  cases st with
  | refl => exact hk
  | tail st' hstep =>
    rcases mem_outboundOf.mp hstep with ⟨_, hmem⟩
    rw [hemp] at hmem
    cases hmem

theorem feedLookup_isSome {feed : List (Nat × ℚ)} {n : Nat}
    (h : n ∈ feed.map Prod.fst) : (feedLookup feed n).isSome := by
  induction feed with
  | nil => cases h
  | cons p rest ih =>
    unfold feedLookup
    by_cases hp : p.1 = n
    · rw [List.find?_cons_of_pos _ (by simp [hp])]
      rfl
    · rw [List.find?_cons_of_neg _ (by simp [hp])]
      rcases List.mem_map.mp h with ⟨q, hq, hqn⟩
      rcases List.mem_cons.mp hq with rfl | hq'
      · exact absurd hqn hp
      · exact ih (List.mem_map.mpr ⟨q, hq', hqn⟩)

theorem feedLookup_eq {feed : List (Nat × ℚ)} {k : Nat} {v : ℚ}
    (hnodup : (feed.map Prod.fst).Nodup) (h : (k, v) ∈ feed) :
    feedLookup feed k = some v := by
  induction feed with
  | nil => cases h
  | cons p rest ih =>
    rcases List.mem_cons.mp h with rfl | h'
    · unfold feedLookup
      rw [List.find?_cons_of_pos _ (by simp)]
      rfl
    · have hp : p.1 ≠ k := by
        intro hpk
        have : k ∈ rest.map Prod.fst := List.mem_map.mpr ⟨(k, v), h', rfl⟩
        rw [List.map_cons, List.nodup_cons, hpk] at hnodup
        exact hnodup.1 this
      unfold feedLookup
      rw [List.find?_cons_of_neg _ (by simp [hp])]
      exact ih (List.nodup_cons.mp (by simpa using hnodup)).2 h'

theorem length_appendOut (recs : List NodeRec) (i j : Nat) :
    (appendOut recs i j).length = recs.length := List.length_set ..

theorem getD_appendOut_self {recs : List NodeRec} {i : Nat} (h : i < recs.length) (j : Nat) :
    (appendOut recs i j).getD i emptyRec =
      ⟨(recs.getD i emptyRec).inbound, (recs.getD i emptyRec).outbound ++ [j]⟩ := by
  unfold appendOut
  rw [List.getD_eq_getElem?_getD, List.getElem?_set_self h]
  rfl

theorem getD_appendOut_ne {recs : List NodeRec} {i x : Nat} (h : i ≠ x) (j : Nat) :
    (appendOut recs i j).getD x emptyRec = recs.getD x emptyRec := by
  unfold appendOut
  rw [List.getD_eq_getElem?_getD, List.getElem?_set_ne h, ← List.getD_eq_getElem?_getD]

theorem foldl_appendOut (j : Nat) :
    ∀ (l : List Nat) (rs : List NodeRec), (∀ i ∈ l, i < rs.length) →
      ((l.foldl (fun rs i => appendOut rs i j) rs).length = rs.length ∧
       ∀ x, (l.foldl (fun rs i => appendOut rs i j) rs).getD x emptyRec =
         ⟨(rs.getD x emptyRec).inbound,
          (rs.getD x emptyRec).outbound ++ List.replicate (l.count x) j⟩) := by
  intro l
  induction l with
  | nil =>
    intro rs _
    refine ⟨rfl, fun x => ?_⟩
    simp
  | cons i tl ih =>
    intro rs hbound
    have hi : i < rs.length := hbound i (List.mem_cons_self i tl)
    have hlen1 : (appendOut rs i j).length = rs.length := length_appendOut ..
    have hb' : ∀ i' ∈ tl, i' < (appendOut rs i j).length := by
      intro i' hi'
      rw [hlen1]
      exact hbound i' (List.mem_cons_of_mem _ hi')
    obtain ⟨hlen2, hget⟩ := ih (appendOut rs i j) hb'
    refine ⟨by simp only [List.foldl_cons]; rw [hlen2, hlen1], fun x => ?_⟩
    simp only [List.foldl_cons]
    rw [hget x]
    by_cases hxi : i = x
    · subst hxi
      rw [getD_appendOut_self hi]
      have hc : (i :: tl).count i = tl.count i + 1 := by simp [List.count_cons]
      rw [hc, List.append_assoc, List.singleton_append, ← List.replicate_succ]
    · rw [getD_appendOut_ne hxi]
      have : tl.count x = (i :: tl).count x := by
        simp [List.count_cons, hxi]
      rw [this]

theorem inboundOf_append_lt {g : Graph} {nd : NodeDef} {j : Nat} (h : j < g.length) :
    inboundOf (g ++ [nd]) j = inboundOf g j := by
  unfold inboundOf nodeOf
  rw [List.getD_append _ _ _ _ h]

theorem inboundOf_append_self (g : Graph) (nd : NodeDef) :
    inboundOf (g ++ [nd]) g.length = nd.inbound := by
  unfold inboundOf nodeOf
  rw [List.getD_eq_getElem?_getD]
  simp

theorem flatMap_congr_mem {l : List Nat} {f f' : Nat → List Nat}
    (h : ∀ j ∈ l, f j = f' j) : l.flatMap f = l.flatMap f' := by
  induction l with
  | nil => rfl
  | cons a tl ih =>
    simp only [List.flatMap_cons]
    rw [h a (List.mem_cons_self a tl), ih fun j hj => h j (List.mem_cons_of_mem _ hj)]

theorem outboundOf_append (g : Graph) (nd : NodeDef) (x : Nat) :
    outboundOf (g ++ [nd]) x = outboundOf g x ++ List.replicate (nd.inbound.count x) g.length := by
  unfold outboundOf
  rw [List.length_append, List.length_singleton, List.range_succ, List.flatMap_append]
  congr 1
  · exact flatMap_congr_mem fun j hj =>
      by rw [inboundOf_append_lt (List.mem_range.mp hj)]
  · simp [inboundOf_append_self]

theorem length_buildRecs (g : Graph) : (buildRecs g).length = g.length := by
  simp [buildRecs]

theorem buildRecs_getD {g : Graph} {a : Nat} (h : a < g.length) :
    (buildRecs g).getD a emptyRec = ⟨inboundOf g a, outboundOf g a⟩ := by
  unfold buildRecs
  rw [List.getD_eq_getElem?_getD, List.getElem?_map]
  simp [List.getElem?_range h]

theorem buildRecs_getD_of_le {g : Graph} {a : Nat} (h : g.length ≤ a) :
    (buildRecs g).getD a emptyRec = emptyRec := by
  apply List.getD_eq_default
  rw [length_buildRecs]
  exact h

theorem list_ext_getD {α : Type} (d : α) :
    ∀ {l1 l2 : List α}, l1.length = l2.length →
      (∀ a, l1.getD a d = l2.getD a d) → l1 = l2 := by
  intro l1
  induction l1 with
  | nil =>
    intro l2 hlen _
    cases l2 with
    | nil => rfl
    | cons b t => simp at hlen
  | cons a t ih =>
    intro l2 hlen hget
    cases l2 with
    | nil => simp at hlen
    | cons b t2 =>
      have h0 := hget 0
      simp only [List.getD_cons_zero] at h0
      subst h0
      have : t = t2 := by
        apply ih (by simpa using hlen)
        intro a'
        have := hget (a' + 1)
        simpa only [List.getD_cons_succ] using this
      rw [this]

theorem outboundOf_eq_nil_of_constructible {g : Graph} (hwf : constructible g)
    {x : Nat} (hx : g.length ≤ x) : outboundOf g x = [] := by
  apply List.eq_nil_iff_forall_not_mem.mpr
  intro m hm
  rcases mem_outboundOf.mp hm with ⟨hmlt, hmem⟩
  have := hwf m hmlt x hmem
  omega

theorem wireNode_buildRecs (g' : Graph) (nd : NodeDef)
    (hwf : constructible (g' ++ [nd])) :
    wireNode (buildRecs g') nd = buildRecs (g' ++ [nd]) := by
  have hilt : ∀ i ∈ nd.inbound, i < g'.length := by
    intro i hi
    have hlen : g'.length < (g' ++ [nd]).length := by simp
    have := hwf g'.length hlen i (by rw [inboundOf_append_self]; exact hi)
    exact this
  have hwf' : constructible g' := by
    intro j hj i hi
    have hj' : j < (g' ++ [nd]).length := by simp; omega
    exact hwf j hj' i (by rw [inboundOf_append_lt hj]; exact hi)
  have hbound : ∀ i ∈ nd.inbound, i < (buildRecs g' ++ [(⟨nd.inbound, []⟩ : NodeRec)]).length := by
    intro i hi
    simp only [List.length_append, length_buildRecs, List.length_singleton]
    have := hilt i hi
    omega
  obtain ⟨hlen, hget⟩ := foldl_appendOut (buildRecs g').length nd.inbound
    (buildRecs g' ++ [(⟨nd.inbound, []⟩ : NodeRec)]) hbound
  apply list_ext_getD emptyRec
  · unfold wireNode
    rw [hlen]
    simp [length_buildRecs]
  · intro a
    unfold wireNode
    rw [hget a]
    by_cases ha : a < g'.length
    · rw [show (buildRecs g' ++ [(⟨nd.inbound, []⟩ : NodeRec)]).getD a emptyRec
          = (buildRecs g').getD a emptyRec from
          List.getD_append _ _ _ _ (by rw [length_buildRecs]; exact ha)]
      rw [buildRecs_getD ha, buildRecs_getD (by simp; omega), length_buildRecs]
      rw [inboundOf_append_lt ha, outboundOf_append]
    · by_cases ha' : a = g'.length
      · subst ha'
        rw [show (buildRecs g' ++ [(⟨nd.inbound, []⟩ : NodeRec)]).getD g'.length emptyRec
            = (⟨nd.inbound, []⟩ : NodeRec) by
          rw [List.getD_eq_getElem?_getD,
            show g'.length = (buildRecs g').length from (length_buildRecs g').symm,
            List.getElem?_concat_length]
          rfl]
        rw [length_buildRecs, buildRecs_getD (by simp)]
        have hcnt : nd.inbound.count g'.length = 0 := by
          rw [List.count_eq_zero]
          intro hmem
          exact absurd (hilt _ hmem) (by omega)
        rw [inboundOf_append_self, outboundOf_append, hcnt,
          outboundOf_eq_nil_of_constructible hwf' (le_refl _)]
      · have hge : g'.length + 1 ≤ a := by omega
        rw [show (buildRecs g' ++ [(⟨nd.inbound, []⟩ : NodeRec)]).getD a emptyRec = emptyRec from
          List.getD_eq_default _ _ (by simp [length_buildRecs]; omega)]
        rw [buildRecs_getD_of_le (by simp; omega)]
        have : nd.inbound.count a = 0 := by
          rw [List.count_eq_zero]
          intro hmem
          exact absurd (hilt _ hmem) (by omega)
        simp [this, emptyRec]

theorem construct_eq (g : Graph) (hwf : constructible g) (hnm : noMulG g) :
    construct g = Except.ok (buildRecs g) := by
  induction g using List.reverseRecOn with
  | nil => rfl
  | append_singleton g' nd ih =>
    have hwf' : constructible g' := by
      intro j hj i hi
      have hj' : j < (g' ++ [nd]).length := by simp; omega
      exact hwf j hj' i (by rw [inboundOf_append_lt hj]; exact hi)
    have hnm' : noMulG g' := fun x hx => hnm x (List.mem_append_left _ hx)
    unfold construct at ih ⊢
    rw [List.foldlM_append, ih hwf' hnm']
    have hndk : nd.kind ≠ NodeKind.mul := hnm nd (List.mem_append_right _ (List.mem_singleton_self nd))
    have hstep : (match nd.kind with
        | NodeKind.mul => (Except.error MFError.nameError : Except MFError (List NodeRec))
        | _ => Except.ok (wireNode (buildRecs g') nd)) = Except.ok (wireNode (buildRecs g') nd) := by
      cases h : nd.kind <;> first | rfl | exact absurd h hndk
    show List.foldlM (fun recs nd =>
        match nd.kind with
        | NodeKind.mul => Except.error MFError.nameError
        | _ => Except.ok (wireNode recs nd)) (buildRecs g') [nd] =
      Except.ok (buildRecs (g' ++ [nd]))
    simp only [List.foldlM_cons, List.foldlM_nil]
    rw [wireNode_buildRecs g' nd hwf]
    cases h : nd.kind with
    | mul => exact absurd h hndk
    | input => rfl
    | add => rfl
    | sigmoid => rfl

theorem construct_ok_noMul :
    ∀ (l : List NodeDef) (init recs : List NodeRec),
      (l.foldlM (fun recs nd =>
        match nd.kind with
        | NodeKind.mul => Except.error MFError.nameError
        | _ => Except.ok (wireNode recs nd)) init) = Except.ok recs →
      ∀ nd ∈ l, nd.kind ≠ NodeKind.mul := by
  intro l
  induction l with
  | nil => intro _ _ _ nd h; cases h
  | cons a tl ih =>
    intro init recs hok nd hnd
    rw [List.foldlM_cons] at hok
    cases ha : a.kind with
    | mul =>
      rw [ha] at hok
      exact Except.noConfusion hok
    | _ =>
      rw [ha] at hok
      rcases List.mem_cons.mp hnd with rfl | htl
      · rw [ha]; simp
      · exact ih _ _ hok nd htl

theorem inboundOf_take {g : Graph} {k j : Nat} (h : j < k) :
    inboundOf (g.take k) j = inboundOf g j := by
  unfold inboundOf nodeOf
  rw [List.getD_eq_getElem?_getD, List.getD_eq_getElem?_getD, List.getElem?_take, if_pos h]

theorem length_take_of_le {g : Graph} {k : Nat} (h : k ≤ g.length) :
    (g.take k).length = k := by
  rw [List.length_take]
  omega

theorem constructible_take {g : Graph} (hwf : constructible g) (k : Nat) :
    constructible (g.take k) := by
  intro j hj i hi
  have hjk : j < k := by
    have := List.length_take k g
    omega
  have hjg : j < g.length := by
    have := List.length_take k g
    omega
  rw [inboundOf_take hjk] at hi
  exact hwf j hjg i hi

theorem noMulG_take {g : Graph} (hnm : noMulG g) (k : Nat) : noMulG (g.take k) :=
  fun nd hnd => hnm nd (List.take_subset k g hnd)

theorem sgd_update_fold :
    ∀ (l : List Nat) (lr : ℚ) (s : MFState), l.Nodup →
      (∀ t ∈ l, (s.gradients t t).isSome ∧ (s.value t).isSome) →
      ∃ s', sgd_update l lr s = Except.ok s' ∧
        (∀ t ∈ l, ∀ v p : ℚ, s.value t = some v → s.gradients t t = some p →
          s'.value t = some (v - lr * p)) ∧
        (∀ x, x ∉ l → s'.value x = s.value x) ∧
        s'.gradients = s.gradients := by
  intro l
  induction l with
  | nil =>
    intro lr s _ _
    exact ⟨s, rfl, fun t ht => absurd ht (List.not_mem_nil t), fun x _ => rfl, rfl⟩
  | cons t tl ih =>
    intro lr s hnodup hsome
    obtain ⟨hg, hv⟩ := hsome t (List.mem_cons_self t tl)
    obtain ⟨p, hp⟩ := Option.isSome_iff_exists.mp hg
    obtain ⟨v, hvv⟩ := Option.isSome_iff_exists.mp hv
    have htl : t ∉ tl := (List.nodup_cons.mp hnodup).1
    set st1 : MFState :=
      { s with value := Function.update s.value t (some (v - lr * p)) } with hst1
    have hstep : sgd_update (t :: tl) lr s = sgd_update tl lr st1 := by
      unfold sgd_update
      rw [List.foldlM_cons, hp, hvv]
      rfl
    obtain ⟨s', hok, hupd, hrest, hgrad⟩ := ih lr st1 (List.nodup_cons.mp hnodup).2 (by
      intro t' ht'
      have hne : t' ≠ t := fun h => htl (h ▸ ht')
      constructor
      · exact (hsome t' (List.mem_cons_of_mem _ ht')).1
      · show (Function.update s.value t (some (v - lr * p)) t').isSome
        rw [Function.update_noteq hne]
        exact (hsome t' (List.mem_cons_of_mem _ ht')).2)
    refine ⟨s', by rw [hstep]; exact hok, ?_, ?_, hgrad⟩
    · intro t' ht' v' p' hv' hp'
      rcases List.mem_cons.mp ht' with rfl | ht''
      · have hveq : v' = v := Option.some_inj.mp (hv'.symm.trans hvv)
        have hpeq : p' = p := Option.some_inj.mp (hp'.symm.trans hp)
        subst hveq
        subst hpeq
        rw [hrest t' htl]
        show Function.update s.value t' (some (v' - lr * p')) t' = some (v' - lr * p')
        rw [Function.update_same]
      · have hne : t' ≠ t := fun h => htl (h ▸ ht'')
        refine hupd t' ht'' v' p' ?_ hp'
        show Function.update s.value t (some (v - lr * p)) t' = some v'
        rw [Function.update_noteq hne]
        exact hv'
    · intro x hx
      have hxt : x ≠ t := fun h => hx (h ▸ List.mem_cons_self t tl)
      have hxtl : x ∉ tl := fun h => hx (List.mem_cons_of_mem _ h)
      rw [hrest x hxtl]
      show Function.update s.value t (some (v - lr * p)) x = s.value x
      rw [Function.update_noteq hxt]

/-! ### Discovery: characterizing one processing step -/
theorem addEdges_dom (n : Nat) :
    ∀ (l : List Nat) (G : DiscG),
      (l.foldl (fun G' m => addEdge G' n m) G).dom = G.dom ∪ l.toFinset := by
  intro l
  induction l with
  | nil => intro G; simp
  | cons a tl ih =>
    intro G
    simp only [List.foldl_cons]
    rw [ih]
    show insert a G.dom ∪ tl.toFinset = G.dom ∪ (a :: tl).toFinset
    ext x
    simp only [Finset.mem_union, Finset.mem_insert, List.toFinset_cons, List.mem_toFinset]
    tauto

theorem addEdges_outS_self (n : Nat) :
    ∀ (l : List Nat) (G : DiscG),
      (l.foldl (fun G' m => addEdge G' n m) G).outS n = G.outS n ∪ l.toFinset := by
  intro l
  induction l with
  | nil => intro G; simp
  | cons a tl ih =>
    intro G
    simp only [List.foldl_cons]
    rw [ih]
    show (addEdge G n a).outS n ∪ tl.toFinset = G.outS n ∪ (a :: tl).toFinset
    have : (addEdge G n a).outS n = insert a (G.outS n) := by
      unfold addEdge
      exact Function.update_same ..
    rw [this]
    ext x
    simp only [Finset.mem_union, Finset.mem_insert, List.toFinset_cons, List.mem_toFinset]
    tauto

theorem addEdges_outS_ne (n : Nat) {x : Nat} (hx : x ≠ n) :
    ∀ (l : List Nat) (G : DiscG),
      (l.foldl (fun G' m => addEdge G' n m) G).outS x = G.outS x := by
  intro l
  induction l with
  | nil => intro G; rfl
  | cons a tl ih =>
    intro G
    simp only [List.foldl_cons]
    rw [ih]
    show (addEdge G n a).outS x = G.outS x
    unfold addEdge
    exact Function.update_noteq hx ..

theorem addEdges_inS (n : Nat) :
    ∀ (l : List Nat) (G : DiscG) (m : Nat),
      (l.foldl (fun G' m => addEdge G' n m) G).inS m =
        if m ∈ l then insert n (G.inS m) else G.inS m := by
  intro l
  induction l with
  | nil => intro G m; simp
  | cons a tl ih =>
    intro G m
    simp only [List.foldl_cons]
    rw [ih]
    have hbase : (addEdge G n a).inS m =
        if m = a then insert n (G.inS m) else G.inS m := by
      unfold addEdge
      by_cases hma : m = a
      · subst hma
        rw [if_pos rfl]
        exact Function.update_same ..
      · rw [if_neg hma]
        exact Function.update_noteq hma ..
    by_cases hmtl : m ∈ tl
    · rw [if_pos hmtl, if_pos (List.mem_cons_of_mem _ hmtl), hbase]
      by_cases hma : m = a
      · rw [if_pos hma, Finset.insert_idem]
      · rw [if_neg hma]
    · rw [if_neg hmtl, hbase]
      by_cases hma : m = a
      · rw [if_pos hma, if_pos (by rw [hma]; exact List.mem_cons_self a tl)]
      · rw [if_neg hma, if_neg (by
          intro hmem
          rcases List.mem_cons.mp hmem with h | h
          · exact hma h
          · exact hmtl h)]

theorem discProcess_dom (g : Graph) (G : DiscG) (n : Nat) :
    (discProcess g G n).dom = insert n G.dom ∪ (outboundOf g n).toFinset := by
  unfold discProcess
  rw [addEdges_dom]

theorem discProcess_outS_self (g : Graph) (G : DiscG) (n : Nat) :
    (discProcess g G n).outS n = G.outS n ∪ (outboundOf g n).toFinset := by
  unfold discProcess
  rw [addEdges_outS_self]

theorem discProcess_outS_ne (g : Graph) (G : DiscG) {n x : Nat} (hx : x ≠ n) :
    (discProcess g G n).outS x = G.outS x := by
  unfold discProcess
  rw [addEdges_outS_ne n hx]

theorem discProcess_inS (g : Graph) (G : DiscG) (n m : Nat) :
    (discProcess g G n).inS m =
      if m ∈ outboundOf g n then insert n (G.inS m) else G.inS m := by
  unfold discProcess
  rw [addEdges_inS]

theorem DInv_step {g : Graph} {keys : List Nat} {n : Nat} {rest : List Nat} {G : DiscG}
    (h : DInv g keys (n :: rest) G) :
    DInv g keys (rest ++ outboundOf g n) (discProcess g G n) := by
  have hnq : n ∈ n :: rest := List.mem_cons_self n rest
  have hnreach : Reach g keys n := h.qReach n hnq
  constructor
  · intro x hx
    rcases List.mem_append.mp hx with hx | hx
    · exact h.qReach x (List.mem_cons_of_mem _ hx)
    · exact hnreach.step hx
  · intro x hx
    rcases List.mem_append.mp hx with hx | hx
    · exact h.qLt x (List.mem_cons_of_mem _ hx)
    · exact outboundOf_lt hx
  · intro x hx
    rw [discProcess_dom] at hx
    rcases Finset.mem_union.mp hx with hx | hx
    · rcases Finset.mem_insert.mp hx with rfl | hx
      · exact hnreach
      · exact h.domReach x hx
    · exact hnreach.step (List.mem_toFinset.mp hx)
  · intro x hx
    rw [discProcess_dom] at hx
    rcases Finset.mem_union.mp hx with hx | hx
    · rcases Finset.mem_insert.mp hx with rfl | hx
      · exact h.qLt x hnq
      · exact h.domLt x hx
    · exact outboundOf_lt (List.mem_toFinset.mp hx)
  · intro k hk
    rcases h.keysIn k hk with hd | hq
    · left
      rw [discProcess_dom]
      exact Finset.mem_union_left _ (Finset.mem_insert_of_mem hd)
    · rcases List.mem_cons.mp hq with rfl | hq
      · left
        rw [discProcess_dom]
        exact Finset.mem_union_left _ (Finset.mem_insert_self k _)
      · right
        exact List.mem_append_left _ hq
  · intro x
    by_cases hx : x = n
    · subst hx
      rw [discProcess_outS_self]
      exact Finset.union_subset (h.outSub x) (Finset.Subset.refl _)
    · rw [discProcess_outS_ne g G hx]
      exact h.outSub x
  · intro x hx
    rw [discProcess_dom] at hx
    by_cases hxn : x = n
    · subst hxn
      left
      intro m hm
      rw [discProcess_outS_self]
      exact Finset.mem_union_right _ (List.mem_toFinset.mpr hm)
    · rcases Finset.mem_union.mp hx with hx | hx
      · rcases Finset.mem_insert.mp hx with rfl | hx
        · exact absurd rfl hxn
        · rcases h.domFull x hx with hfull | hq
          · left
            intro m hm
            rw [discProcess_outS_ne g G hxn]
            exact hfull m hm
          · rcases List.mem_cons.mp hq with rfl | hq
            · exact absurd rfl hxn
            · right
              exact List.mem_append_left _ hq
      · right
        exact List.mem_append_right _ (List.mem_toFinset.mp hx)
  · intro x m
    by_cases hxn : x = n
    · subst hxn
      rw [discProcess_outS_self, discProcess_inS]
      by_cases hm : m ∈ outboundOf g x
      · simp [hm, List.mem_toFinset]
      · simp only [if_neg hm]
        rw [Finset.mem_union]
        have : m ∉ (outboundOf g x).toFinset := fun hc => hm (List.mem_toFinset.mp hc)
        constructor
        · intro hor
          rcases hor with hor | hor
          · exact (h.inOut x m).mp hor
          · exact absurd hor this
        · intro hin
          exact Or.inl ((h.inOut x m).mpr hin)
    · rw [discProcess_outS_ne g G hxn, discProcess_inS]
      by_cases hm : m ∈ outboundOf g n
      · rw [if_pos hm, Finset.mem_insert]
        constructor
        · intro hmem
          exact Or.inr ((h.inOut x m).mp hmem)
        · intro hor
          rcases hor with rfl | hor
          · exact absurd rfl hxn
          · exact (h.inOut x m).mpr hor
      · rw [if_neg hm]
        exact h.inOut x m
  · intro x m hm
    rw [discProcess_dom]
    by_cases hxn : x = n
    · subst hxn
      rw [discProcess_outS_self] at hm
      refine ⟨Finset.mem_union_left _ (Finset.mem_insert_self x _), ?_⟩
      rcases Finset.mem_union.mp hm with hm | hm
      · exact Finset.mem_union_left _ (Finset.mem_insert_of_mem (h.edgeDom x m hm).2)
      · exact Finset.mem_union_right _ hm
    · rw [discProcess_outS_ne g G hxn] at hm
      obtain ⟨h1, h2⟩ := h.edgeDom x m hm
      exact ⟨Finset.mem_union_left _ (Finset.mem_insert_of_mem h1),
        Finset.mem_union_left _ (Finset.mem_insert_of_mem h2)⟩
  · intro x hx
    rw [discProcess_dom] at hx
    have hxn : x ≠ n := fun hc =>
      hx (by rw [hc]; exact Finset.mem_union_left _ (Finset.mem_insert_self n _))
    have hxd : x ∉ G.dom := fun hc =>
      hx (Finset.mem_union_left _ (Finset.mem_insert_of_mem hc))
    rw [discProcess_outS_ne g G hxn]
    exact h.undisc x hxd

theorem DFinal_of_DInv_nil {g : Graph} {keys : List Nat} {G : DiscG}
    (h : DInv g keys [] G) : DFinal g keys G := by
  have hout_eq : ∀ n ∈ G.dom, G.outS n = (outboundOf g n).toFinset := by
    intro n hn
    rcases h.domFull n hn with hfull | hq
    · apply Finset.Subset.antisymm (h.outSub n)
      intro m hm
      exact hfull m (List.mem_toFinset.mp hm)
    · cases hq
  constructor
  · intro x
    constructor
    · exact h.domReach x
    · rintro ⟨k, hk, st⟩
      induction st with
      | refl =>
        rcases h.keysIn _ hk with hd | hq
        · exact hd
        · cases hq
      | @tail b c st' hstep ih =>
        have hmem : c ∈ G.outS b := by
          rw [hout_eq _ ih]
          exact List.mem_toFinset.mpr hstep
        exact (h.edgeDom _ _ hmem).2
  · exact h.domLt
  · exact hout_eq
  · exact h.undisc
  · intro n m
    constructor
    · intro hin
      have hmem : m ∈ G.outS n := (h.inOut n m).mpr hin
      exact ⟨(h.edgeDom n m hmem).1, List.mem_toFinset.mp (h.outSub n hmem)⟩
    · rintro ⟨hd, hm⟩
      apply (h.inOut n m).mp
      rw [hout_eq n hd]
      exact List.mem_toFinset.mpr hm

theorem DInv_init (g : Graph) (keys : List Nat) (hkLt : ∀ k ∈ keys, k < g.length) :
    DInv g keys keys initDiscG := by
  constructor
  · exact fun x hx => Reach.base hx
  · exact hkLt
  · intro x hx; cases hx
  · intro x hx; cases hx
  · exact fun k hk => Or.inr hk
  · intro n m hm; cases hm
  · intro n hn; cases hn
  · intro n m
    show m ∈ (∅ : Finset Nat) ↔ n ∈ (∅ : Finset Nat)
    simp
  · intro n m hm; cases hm
  · intro n _; rfl

theorem discover_sound (g : Graph) (keys : List Nat) :
    ∀ (fuel : Nat) (q : List Nat) (G : DiscG), DInv g keys q G →
      ∀ Gf, discover g fuel q G = some Gf → DFinal g keys Gf := by
  intro fuel
  induction fuel with
  | zero =>
    intro q G hinv Gf hGf
    cases q with
    | nil =>
      cases hGf
      exact DFinal_of_DInv_nil hinv
    | cons n rest => cases hGf
  | succ f ih =>
    intro q G hinv Gf hGf
    cases q with
    | nil =>
      cases hGf
      exact DFinal_of_DInv_nil hinv
    | cons n rest => exact ih _ _ (DInv_step hinv) Gf hGf

/-! ### Discovery: termination on acyclic graphs -/
theorem listMax_le {l : List Nat} {a : Nat} (h : a ∈ l) : a ≤ listMax l := by
  induction l with
  | nil => cases h
  | cons b tl ih =>
    rcases List.mem_cons.mp h with rfl | h
    · exact le_max_left ..
    · exact le_trans (ih h) (le_max_right ..)

theorem maxOutDeg_ge {g : Graph} {n : Nat} (h : n < g.length) :
    (outboundOf g n).length ≤ maxOutDeg g :=
  listMax_le (List.mem_map.mpr ⟨n, List.mem_range.mpr h, rfl⟩)

theorem maxRankB_ge {g : Graph} (rank : Nat → Nat) {n : Nat} (h : n < g.length) :
    rank n ≤ maxRankB g rank :=
  listMax_le (List.mem_map.mpr ⟨n, List.mem_range.mpr h, rfl⟩)

theorem sum_map_le_of_le {l : List Nat} {f : Nat → Nat} {C : Nat}
    (h : ∀ x ∈ l, f x ≤ C) : (l.map f).sum ≤ l.length * C := by
  induction l with
  | nil => simp
  | cons a tl ih =>
    simp only [List.map_cons, List.sum_cons, List.length_cons]
    have h1 := h a (List.mem_cons_self a tl)
    have h2 := ih fun x hx => h x (List.mem_cons_of_mem _ hx)
    calc f a + (tl.map f).sum ≤ C + tl.length * C := Nat.add_le_add h1 h2
    _ = (tl.length + 1) * C := by ring

theorem qMeasure_cons (g : Graph) (rank : Nat → Nat) (n : Nat) (q : List Nat) :
    qMeasure g rank (n :: q) =
      (maxOutDeg g + 2) ^ (maxRankB g rank + 1 - rank n) + qMeasure g rank q := by
  unfold qMeasure
  simp

theorem qMeasure_append (g : Graph) (rank : Nat → Nat) (q q' : List Nat) :
    qMeasure g rank (q ++ q') = qMeasure g rank q + qMeasure g rank q' := by
  unfold qMeasure
  simp

theorem qMeasure_step {g : Graph} {rank : Nat → Nat} (hacyc : acyclicRank g rank)
    {n : Nat} (hn : n < g.length) (rest : List Nat) :
    qMeasure g rank (rest ++ outboundOf g n) + 1 ≤ qMeasure g rank (n :: rest) := by
  rw [qMeasure_append, qMeasure_cons]
  have hone : 1 ≤ maxOutDeg g + 2 := by omega
  have hC1 : 1 ≤ (maxOutDeg g + 2) ^ (maxRankB g rank - rank n) :=
    Nat.one_le_pow _ _ (by omega)
  have houts : qMeasure g rank (outboundOf g n) ≤
      maxOutDeg g * (maxOutDeg g + 2) ^ (maxRankB g rank - rank n) := by
    unfold qMeasure
    have hb : ∀ x ∈ outboundOf g n,
        (maxOutDeg g + 2) ^ (maxRankB g rank + 1 - rank x) ≤
          (maxOutDeg g + 2) ^ (maxRankB g rank - rank n) := by
      intro x hx
      apply Nat.pow_le_pow_right hone
      have := acyclicRank_edge hacyc hx
      omega
    calc ((outboundOf g n).map _).sum
        ≤ (outboundOf g n).length * (maxOutDeg g + 2) ^ (maxRankB g rank - rank n) :=
          sum_map_le_of_le hb
    _ ≤ maxOutDeg g * (maxOutDeg g + 2) ^ (maxRankB g rank - rank n) :=
          Nat.mul_le_mul_right _ (maxOutDeg_ge hn)
  have hKn : rank n ≤ maxRankB g rank := maxRankB_ge rank hn
  have hexp : maxRankB g rank + 1 - rank n = (maxRankB g rank - rank n) + 1 := by omega
  have hBpow : (maxOutDeg g + 2) ^ (maxRankB g rank + 1 - rank n) =
      (maxOutDeg g + 2) ^ (maxRankB g rank - rank n) * (maxOutDeg g + 2) := by
    rw [hexp, pow_succ]
  have hfinal : qMeasure g rank (outboundOf g n) + 1 ≤
      (maxOutDeg g + 2) ^ (maxRankB g rank + 1 - rank n) := by
    rw [hBpow]
    have : maxOutDeg g * (maxOutDeg g + 2) ^ (maxRankB g rank - rank n) + 1 ≤
        (maxOutDeg g + 2) ^ (maxRankB g rank - rank n) * (maxOutDeg g + 2) := by
      have expand : (maxOutDeg g + 2) ^ (maxRankB g rank - rank n) * (maxOutDeg g + 2) =
          maxOutDeg g * (maxOutDeg g + 2) ^ (maxRankB g rank - rank n) +
            2 * (maxOutDeg g + 2) ^ (maxRankB g rank - rank n) := by ring
      omega
    omega
  omega

theorem qMeasure_cons_pos (g : Graph) (rank : Nat → Nat) (n : Nat) (q : List Nat) :
    1 ≤ qMeasure g rank (n :: q) := by
  rw [qMeasure_cons]
  have : 1 ≤ (maxOutDeg g + 2) ^ (maxRankB g rank + 1 - rank n) :=
    Nat.one_le_pow _ _ (by omega)
  omega

theorem discover_nil (g : Graph) (G : DiscG) : ∀ fuel, discover g fuel [] G = some G := by
  intro fuel
  cases fuel <;> rfl

theorem discover_suff {g : Graph} {rank : Nat → Nat} (hacyc : acyclicRank g rank) :
    ∀ (fuel : Nat) (q : List Nat) (G : DiscG), (∀ x ∈ q, x < g.length) →
      qMeasure g rank q ≤ fuel → (discover g fuel q G).isSome := by
  intro fuel
  induction fuel with
  | zero =>
    intro q G hq hm
    cases q with
    | nil => rw [discover_nil]; rfl
    | cons n rest =>
      have := qMeasure_cons_pos g rank n rest
      omega
  | succ f ih =>
    intro q G hq hm
    cases q with
    | nil => rw [discover_nil]; rfl
    | cons n rest =>
      show (discover g f (rest ++ outboundOf g n) (discProcess g G n)).isSome
      apply ih
      · intro x hx
        rcases List.mem_append.mp hx with hx | hx
        · exact hq x (List.mem_cons_of_mem _ hx)
        · exact outboundOf_lt hx
      · have := qMeasure_step hacyc (hq n (List.mem_cons_self n rest)) rest
        omega

theorem discover_mono (g : Graph) :
    ∀ (fuel fuel' : Nat) (q : List Nat) (G Gf : DiscG),
      discover g fuel q G = some Gf → fuel ≤ fuel' → discover g fuel' q G = some Gf := by
  intro fuel
  induction fuel with
  | zero =>
    intro fuel' q G Gf h _
    cases q with
    | nil =>
      rw [discover_nil] at h
      rw [discover_nil]
      exact h
    | cons n rest => cases h
  | succ f ih =>
    intro fuel' q G Gf h hle
    cases q with
    | nil =>
      rw [discover_nil] at h
      rw [discover_nil]
      exact h
    | cons n rest =>
      cases fuel' with
      | zero => omega
      | succ f' =>
        show discover g f' (rest ++ outboundOf g n) (discProcess g G n) = some Gf
        exact ih f' _ _ Gf h (by omega)

/-! ### The edge-retirement loop of the Kahn phase -/
theorem retire_cons_ok {n m : Nat} {ms : List Nat} {G : DiscG} {S : Finset Nat}
    (h1 : n ∈ G.dom) (h2 : m ∈ G.outS n) (h3 : m ∈ G.dom) (h4 : n ∈ G.inS m) :
    retire n (m :: ms) G S =
      retire n ms
        ⟨G.dom, Function.update G.inS m ((G.inS m).erase n),
          Function.update G.outS n ((G.outS n).erase m)⟩
        (if (G.inS m).erase n = ∅ then insert m S else S) := by
  show (if n ∈ G.dom then _ else _) = _
  rw [if_pos h1, if_pos h2, if_pos h3, if_pos h4]

theorem retire_error_val {n : Nat} :
    ∀ (l : List Nat) (G : DiscG) (S : Finset Nat) (e : MFError),
      retire n l G S = Except.error e → e = MFError.keyError := by
  intro l
  induction l with
  | nil => intro G S e h; cases h
  | cons m ms ih =>
    intro G S e h
    by_cases h1 : n ∈ G.dom
    · by_cases h2 : m ∈ G.outS n
      · by_cases h3 : m ∈ G.dom
        · by_cases h4 : n ∈ G.inS m
          · rw [retire_cons_ok h1 h2 h3 h4] at h
            exact ih _ _ e h
          · rw [show retire n (m :: ms) G S = Except.error MFError.keyError by
              show (if n ∈ G.dom then _ else _) = _
              rw [if_pos h1, if_pos h2, if_pos h3, if_neg h4]] at h
            exact (Except.error.injEq .. ▸ congrArg id h).symm ▸ rfl
        · rw [show retire n (m :: ms) G S = Except.error MFError.keyError by
            show (if n ∈ G.dom then _ else _) = _
            rw [if_pos h1, if_pos h2, if_neg h3]] at h
          exact (Except.error.injEq .. ▸ congrArg id h).symm ▸ rfl
      · rw [show retire n (m :: ms) G S = Except.error MFError.keyError by
          show (if n ∈ G.dom then _ else _) = _
          rw [if_pos h1, if_neg h2]] at h
        exact (Except.error.injEq .. ▸ congrArg id h).symm ▸ rfl
    · rw [show retire n (m :: ms) G S = Except.error MFError.keyError by
        show (if n ∈ G.dom then _ else _) = _
        rw [if_neg h1]] at h
      exact (Except.error.injEq .. ▸ congrArg id h).symm ▸ rfl

theorem retire_cons_conditions {n m : Nat} {ms : List Nat} {G : DiscG} {S : Finset Nat}
    {r : DiscG × Finset Nat} (h : retire n (m :: ms) G S = Except.ok r) :
    n ∈ G.dom ∧ m ∈ G.outS n ∧ m ∈ G.dom ∧ n ∈ G.inS m := by
  by_cases h1 : n ∈ G.dom
  · by_cases h2 : m ∈ G.outS n
    · by_cases h3 : m ∈ G.dom
      · by_cases h4 : n ∈ G.inS m
        · exact ⟨h1, h2, h3, h4⟩
        · rw [show retire n (m :: ms) G S = Except.error MFError.keyError by
            show (if n ∈ G.dom then _ else _) = _
            rw [if_pos h1, if_pos h2, if_pos h3, if_neg h4]] at h
          cases h
      · rw [show retire n (m :: ms) G S = Except.error MFError.keyError by
          show (if n ∈ G.dom then _ else _) = _
          rw [if_pos h1, if_pos h2, if_neg h3]] at h
        cases h
    · rw [show retire n (m :: ms) G S = Except.error MFError.keyError by
        show (if n ∈ G.dom then _ else _) = _
        rw [if_pos h1, if_neg h2]] at h
      cases h
  · rw [show retire n (m :: ms) G S = Except.error MFError.keyError by
      show (if n ∈ G.dom then _ else _) = _
      rw [if_neg h1]] at h
    cases h

theorem retire_S_mono {n : Nat} :
    ∀ (l : List Nat) (G : DiscG) (S : Finset Nat) (G' : DiscG) (S' : Finset Nat),
      retire n l G S = Except.ok (G', S') → S ⊆ S' := by
  intro l
  induction l with
  | nil =>
    intro G S G' S' h
    cases h
    exact Finset.Subset.refl _
  | cons m ms ih =>
    intro G S G' S' h
    obtain ⟨h1, h2, h3, h4⟩ := retire_cons_conditions h
    rw [retire_cons_ok h1 h2 h3 h4] at h
    have := ih _ _ _ _ h
    intro x hx
    apply this
    by_cases hc : (G.inS m).erase n = ∅
    · rw [if_pos hc]
      exact Finset.mem_insert_of_mem hx
    · rw [if_neg hc]
      exact hx

theorem retire_ok_sub_nodup {n : Nat} :
    ∀ (l : List Nat) (G : DiscG) (S : Finset Nat) (r : DiscG × Finset Nat),
      retire n l G S = Except.ok r → (∀ x ∈ l, x ∈ G.outS n) ∧ l.Nodup := by
  intro l
  induction l with
  | nil => intro G S r _; exact ⟨fun x hx => absurd hx (List.not_mem_nil x), List.nodup_nil⟩
  | cons m ms ih =>
    intro G S r h
    obtain ⟨h1, h2, h3, h4⟩ := retire_cons_conditions h
    rw [retire_cons_ok h1 h2 h3 h4] at h
    obtain ⟨hsub, hnodup⟩ := ih _ _ _ h
    have houtS : ∀ x ∈ ms, x ∈ (G.outS n).erase m := by
      intro x hx
      have := hsub x hx
      rwa [show (⟨G.dom, Function.update G.inS m ((G.inS m).erase n),
        Function.update G.outS n ((G.outS n).erase m)⟩ : DiscG).outS n
          = (G.outS n).erase m from Function.update_same ..] at this
    constructor
    · intro x hx
      rcases List.mem_cons.mp hx with rfl | hx
      · exact h2
      · exact Finset.mem_of_mem_erase (houtS x hx)
    · rw [List.nodup_cons]
      refine ⟨fun hc => ?_, hnodup⟩
      have := houtS m hc
      exact absurd (Finset.mem_erase.mp this).1 (by simp)

theorem retire_measure {n : Nat} :
    ∀ (l : List Nat) (G : DiscG) (S : Finset Nat) (G' : DiscG) (S' : Finset Nat),
      retire n l G S = Except.ok (G', S') →
      G'.dom = G.dom ∧
      S'.card + ∑ m ∈ G'.dom, (G'.inS m).card ≤ S.card + ∑ m ∈ G.dom, (G.inS m).card := by
  intro l
  induction l with
  | nil =>
    intro G S G' S' h
    cases h
    exact ⟨rfl, le_refl _⟩
  | cons m ms ih =>
    intro G S G' S' h
    obtain ⟨h1, h2, h3, h4⟩ := retire_cons_conditions h
    rw [retire_cons_ok h1 h2 h3 h4] at h
    obtain ⟨hdom, hle⟩ := ih _ _ _ _ h
    refine ⟨hdom, le_trans hle ?_⟩
    have hsum : ∑ x ∈ G.dom, (Function.update G.inS m ((G.inS m).erase n) x).card =
        ((G.inS m).erase n).card + ∑ x ∈ G.dom \ {m}, (G.inS x).card := by
      have hpt : ∀ x ∈ G.dom, (Function.update G.inS m ((G.inS m).erase n) x).card =
          Function.update (fun y => (G.inS y).card) m ((G.inS m).erase n).card x := by
        intro x _
        by_cases hx : x = m
        · subst hx
          rw [Function.update_same, Function.update_same]
        · rw [Function.update_noteq hx, Function.update_noteq hx]
      rw [Finset.sum_congr rfl hpt]
      exact Finset.sum_update_of_mem h3 _ _
    have hsum2 : ∑ x ∈ G.dom, (G.inS x).card =
        (G.inS m).card + ∑ x ∈ G.dom \ {m}, (G.inS x).card := by
      rw [← Finset.erase_eq]
      exact (Finset.add_sum_erase _ _ h3).symm
    have hcard : ((G.inS m).erase n).card = (G.inS m).card - 1 :=
      Finset.card_erase_of_mem h4
    have hpos : 1 ≤ (G.inS m).card := Finset.card_pos.mpr ⟨n, h4⟩
    have hScard : (if (G.inS m).erase n = ∅ then insert m S else S).card ≤ S.card + 1 := by
      by_cases hc : (G.inS m).erase n = ∅
      · rw [if_pos hc]
        exact Finset.card_insert_le ..
      · rw [if_neg hc]
        omega
    show (if (G.inS m).erase n = ∅ then insert m S else S).card +
        ∑ x ∈ G.dom, (Function.update G.inS m ((G.inS m).erase n) x).card ≤
      S.card + ∑ x ∈ G.dom, (G.inS x).card
    rw [hsum]
    omega

theorem retire_ok_post {n : Nat} :
    ∀ (l : List Nat) (G : DiscG) (S : Finset Nat) (G' : DiscG) (S' : Finset Nat),
      n ∉ l → retire n l G S = Except.ok (G', S') →
      G'.dom = G.dom ∧
      G'.outS n = G.outS n \ l.toFinset ∧
      (∀ x, x ≠ n → G'.outS x = G.outS x) ∧
      (∀ m ∈ l, G'.inS m = (G.inS m).erase n) ∧
      (∀ m, m ∉ l → G'.inS m = G.inS m) ∧
      (∀ x, x ∈ S' ↔ x ∈ S ∨ (x ∈ l ∧ (G.inS x).erase n = ∅)) := by
  intro l
  induction l with
  | nil =>
    intro G S G' S' _ h
    cases h
    refine ⟨rfl, by simp, fun x _ => rfl, fun m hm => absurd hm (List.not_mem_nil m),
      fun m _ => rfl, fun x => ?_⟩
    simp
  | cons m ms ih =>
    intro G S G' S' hnl h
    have hnm : n ≠ m := fun hc => hnl (hc ▸ List.mem_cons_self m ms)
    have hnms : n ∉ ms := fun hc => hnl (List.mem_cons_of_mem _ hc)
    have hmms : m ∉ ms := by
      obtain ⟨_, hnodup⟩ := retire_ok_sub_nodup (m :: ms) G S (G', S') h
      exact (List.nodup_cons.mp hnodup).1
    obtain ⟨h1, h2, h3, h4⟩ := retire_cons_conditions h
    rw [retire_cons_ok h1 h2 h3 h4] at h
    set G1 : DiscG := ⟨G.dom, Function.update G.inS m ((G.inS m).erase n),
      Function.update G.outS n ((G.outS n).erase m)⟩ with hG1
    obtain ⟨hdom, houtn, houtx, hinm, hinm', hS⟩ := ih G1 _ G' S' hnms h
    have hG1outn : G1.outS n = (G.outS n).erase m := Function.update_same ..
    have hG1inm : G1.inS m = (G.inS m).erase n := Function.update_same ..
    have hG1in_ne : ∀ x, x ≠ m → G1.inS x = G.inS x := by
      intro x hx
      exact Function.update_noteq hx ..
    refine ⟨hdom, ?_, ?_, ?_, ?_, ?_⟩
    · rw [houtn, hG1outn, Finset.erase_eq]
      ext x
      simp only [Finset.mem_sdiff, Finset.mem_singleton, List.toFinset_cons, Finset.mem_insert,
        List.mem_toFinset]
      tauto
    · intro x hx
      rw [houtx x hx]
      show Function.update G.outS n ((G.outS n).erase m) x = G.outS x
      rw [Function.update_noteq hx]
    · intro m' hm'
      rcases List.mem_cons.mp hm' with rfl | hm'
      · rw [hinm' m' hmms, hG1inm]
      · rw [hinm m' hm', hG1in_ne m' (fun hc => hmms (hc ▸ hm'))]
    · intro m' hm'
      have hm'm : m' ≠ m := fun hc => hm' (hc ▸ List.mem_cons_self m ms)
      have hm'ms : m' ∉ ms := fun hc => hm' (List.mem_cons_of_mem _ hc)
      rw [hinm' m' hm'ms, hG1in_ne m' hm'm]
    · intro x
      rw [hS x]
      have hSsplit : x ∈ (if (G.inS m).erase n = ∅ then insert m S else S) ↔
          x ∈ S ∨ (x = m ∧ (G.inS m).erase n = ∅) := by
        by_cases hc : (G.inS m).erase n = ∅
        · rw [if_pos hc, Finset.mem_insert]
          tauto
        · rw [if_neg hc]
          tauto
      rw [hSsplit]
      by_cases hxm : x = m
      · subst hxm
        have hidem : (G1.inS x).erase n = (G.inS x).erase n := by
          rw [hG1inm, Finset.erase_idem]
        rw [hidem]
        constructor
        · intro hh
          rcases hh with (hs | ⟨_, hc⟩) | ⟨hmem, _⟩
          · exact Or.inl hs
          · exact Or.inr ⟨List.mem_cons_self x ms, hc⟩
          · exact absurd hmem hmms
        · intro hh
          rcases hh with hs | ⟨_, hc⟩
          · exact Or.inl (Or.inl hs)
          · exact Or.inl (Or.inr ⟨rfl, hc⟩)
      · have hxG1 : G1.inS x = G.inS x := hG1in_ne x hxm
        rw [hxG1]
        constructor
        · intro hh
          rcases hh with (hs | ⟨hc, _⟩) | ⟨hmem, hc⟩
          · exact Or.inl hs
          · exact absurd hc hxm
          · exact Or.inr ⟨List.mem_cons_of_mem _ hmem, hc⟩
        · intro hh
          rcases hh with hs | ⟨hmem, hc⟩
          · exact Or.inl (Or.inl hs)
          · rcases List.mem_cons.mp hmem with rfl | hmem
            · exact absurd rfl hxm
            · exact Or.inr ⟨hmem, hc⟩

theorem retire_ok_of_pre {n : Nat} :
    ∀ (l : List Nat) (G : DiscG) (S : Finset Nat),
      l.Nodup → n ∈ G.dom → G.outS n = l.toFinset →
      (∀ m ∈ l, m ∈ G.dom) → (∀ m ∈ l, n ∈ G.inS m) →
      ∃ r, retire n l G S = Except.ok r := by
  intro l
  induction l with
  | nil => intro G S _ _ _ _ _; exact ⟨(G, S), rfl⟩
  | cons m ms ih =>
    intro G S hnodup hdom houtS hmdom hinS
    have hm : m ∈ G.outS n := by
      rw [houtS, List.toFinset_cons]
      exact Finset.mem_insert_self m _
    have h3 : m ∈ G.dom := hmdom m (List.mem_cons_self m ms)
    have h4 : n ∈ G.inS m := hinS m (List.mem_cons_self m ms)
    rw [retire_cons_ok hdom hm h3 h4]
    set G1 : DiscG := ⟨G.dom, Function.update G.inS m ((G.inS m).erase n),
      Function.update G.outS n ((G.outS n).erase m)⟩ with hG1
    apply ih G1
    · exact (List.nodup_cons.mp hnodup).2
    · exact hdom
    · show Function.update G.outS n ((G.outS n).erase m) n = ms.toFinset
      rw [Function.update_same, houtS, List.toFinset_cons,
        Finset.erase_insert (fun hc => (List.nodup_cons.mp hnodup).1 (List.mem_toFinset.mp hc))]
    · exact fun m' hm' => hmdom m' (List.mem_cons_of_mem _ hm')
    · intro m' hm'
      have hne : m' ≠ m := fun hc => (List.nodup_cons.mp hnodup).1 (hc ▸ hm')
      show n ∈ Function.update G.inS m ((G.inS m).erase n) m'
      rw [Function.update_noteq hne]
      exact hinS m' (List.mem_cons_of_mem _ hm')

/-! ### The Kahn loop -/
theorem precedes_mem_left {L : List Nat} {a b : Nat} (h : precedes L a b) : a ∈ L := by
  obtain ⟨l1, l2, l3, rfl⟩ := h
  simp

theorem precedes_append {L l' : List Nat} {a b : Nat} (h : precedes L a b) :
    precedes (L ++ l') a b := by
  obtain ⟨l1, l2, l3, rfl⟩ := h
  exact ⟨l1, l2, l3 ++ l', by simp⟩

theorem precedes_to_append {L : List Nat} {a : Nat} (b : Nat) (h : a ∈ L) :
    precedes (L ++ [b]) a b := by
  obtain ⟨s, t, rfl⟩ := List.append_of_mem h
  exact ⟨s, t, [], by simp⟩

theorem erase_empty_iff {s : Finset Nat} {n : Nat} :
    s.erase n = ∅ ↔ ∀ q ∈ s, q = n := by
  constructor
  · intro h q hq
    by_contra hne
    have hmem : q ∈ s.erase n := Finset.mem_erase.mpr ⟨hne, hq⟩
    rw [h] at hmem
    cases hmem
  · intro h
    apply Finset.eq_empty_iff_forall_not_mem.mpr
    intro q hq
    obtain ⟨hne, hqs⟩ := Finset.mem_erase.mp hq
    exact hne (h q hqs)

theorem nodup_outboundOf {g : Graph} (h : nodupEdges g) (n : Nat) :
    (outboundOf g n).Nodup := by
  rw [List.nodup_iff_count_le_one]
  intro m
  rw [count_outboundOf]
  by_cases hm : m < g.length
  · rw [if_pos hm]
    exact List.nodup_iff_count_le_one.mp (h m hm) n
  · rw [if_neg hm]
    omega

theorem kahnRun_empty (g : Graph) (feed : List (Nat × ℚ)) (fuel : Nat) (st : KahnSt)
    (h : ¬st.S.Nonempty) :
    kahnRun g feed fuel st = some (Except.ok (st.L, st.st)) := by
  cases fuel with
  | zero =>
    show (if st.S.Nonempty then none else some (Except.ok (st.L, st.st))) = _
    rw [if_neg h]
  | succ f =>
    show (if hne : st.S.Nonempty then _ else some (Except.ok (st.L, st.st))) = _
    rw [dif_neg h]

theorem kahnRun_succ (g : Graph) (feed : List (Nat × ℚ)) (fuel : Nat) (st : KahnSt)
    (hne : st.S.Nonempty) :
    kahnRun g feed (fuel + 1) st =
      match kahnValueStep g feed (st.S.min' hne) st.st with
      | Except.error e => some (Except.error e)
      | Except.ok ms =>
        match retire (st.S.min' hne) (outboundOf g (st.S.min' hne)) st.G
            (st.S.erase (st.S.min' hne)) with
        | Except.error e => some (Except.error e)
        | Except.ok (G', S') => kahnRun g feed fuel ⟨S', G', st.L ++ [st.S.min' hne], ms⟩ := by
  show (if hne' : st.S.Nonempty then _ else _) = _
  rw [dif_pos hne]

theorem kahnValueStep_error {g : Graph} {feed : List (Nat × ℚ)} {n : Nat} {ms : MFState}
    {e : MFError} (h : kahnValueStep g feed n ms = Except.error e) : e = MFError.keyError := by
  unfold kahnValueStep at h
  by_cases hk : kindOf g n = NodeKind.input
  · rw [if_pos hk] at h
    cases hfl : feedLookup feed n with
    | none =>
      rw [hfl] at h
      cases h
      rfl
    | some v =>
      rw [hfl] at h
      cases h
  · rw [if_neg hk] at h
    cases h

theorem kahnValueStep_ok_inv {g : Graph} {feed : List (Nat × ℚ)} {n : Nat} {ms ms' : MFState}
    (h : kahnValueStep g feed n ms = Except.ok ms') :
    (kindOf g n = NodeKind.input ∧ ∃ v, feedLookup feed n = some v ∧
      ms' = { ms with value := Function.update ms.value n (some v) }) ∨
    (kindOf g n ≠ NodeKind.input ∧ ms' = ms) := by
  unfold kahnValueStep at h
  by_cases hk : kindOf g n = NodeKind.input
  · rw [if_pos hk] at h
    cases hfl : feedLookup feed n with
    | none =>
      rw [hfl] at h
      cases h
    | some v =>
      rw [hfl] at h
      cases h
      exact Or.inl ⟨hk, v, rfl, rfl⟩
  · rw [if_neg hk] at h
    cases h
    exact Or.inr ⟨hk, rfl⟩

theorem kahnValueStep_isOk {g : Graph} {feed : List (Nat × ℚ)} {n : Nat} (ms : MFState)
    (h : kindOf g n = NodeKind.input → (feedLookup feed n).isSome) :
    ∃ ms', kahnValueStep g feed n ms = Except.ok ms' := by
  unfold kahnValueStep
  by_cases hk : kindOf g n = NodeKind.input
  · rw [if_pos hk]
    obtain ⟨v, hv⟩ := Option.isSome_iff_exists.mp (h hk)
    rw [hv]
    exact ⟨_, rfl⟩
  · rw [if_neg hk]
    exact ⟨ms, rfl⟩

theorem kahnRun_suff (g : Graph) (feed : List (Nat × ℚ)) :
    ∀ (fuel : Nat) (st : KahnSt), kahnMeasure st ≤ fuel →
      (kahnRun g feed fuel st).isSome := by
  intro fuel
  induction fuel with
  | zero =>
    intro st hm
    by_cases hne : st.S.Nonempty
    · exfalso
      have hpos := Finset.card_pos.mpr hne
      unfold kahnMeasure at hm
      omega
    · rw [kahnRun_empty g feed 0 st hne]
      rfl
  | succ f ih =>
    intro st hm
    by_cases hne : st.S.Nonempty
    · rw [kahnRun_succ g feed f st hne]
      cases hv : kahnValueStep g feed (st.S.min' hne) st.st with
      | error e => rfl
      | ok ms =>
        cases hr : retire (st.S.min' hne) (outboundOf g (st.S.min' hne)) st.G
            (st.S.erase (st.S.min' hne)) with
        | error e => rfl
        | ok p =>
          obtain ⟨G', S'⟩ := p
          show (kahnRun g feed f ⟨S', G', st.L ++ [st.S.min' hne], ms⟩).isSome
          apply ih
          obtain ⟨hdom, hle⟩ := retire_measure _ _ _ _ _ hr
          have hcard : (st.S.erase (st.S.min' hne)).card = st.S.card - 1 :=
            Finset.card_erase_of_mem (st.S.min'_mem hne)
          have hpos := Finset.card_pos.mpr hne
          unfold kahnMeasure at hm
          show S'.card + ∑ m ∈ G'.dom, (G'.inS m).card ≤ f
          rw [hdom] at hle ⊢
          omega
    · rw [kahnRun_empty g feed (f + 1) st hne]
      rfl

theorem kahnRun_error (g : Graph) (feed : List (Nat × ℚ)) :
    ∀ (fuel : Nat) (st : KahnSt) (e : MFError),
      kahnRun g feed fuel st = some (Except.error e) → e = MFError.keyError := by
  intro fuel
  induction fuel with
  | zero =>
    intro st e h
    by_cases hne : st.S.Nonempty
    · rw [show kahnRun g feed 0 st = none from by
        show (if st.S.Nonempty then none else _) = none
        rw [if_pos hne]] at h
      cases h
    · rw [kahnRun_empty g feed 0 st hne] at h
      cases h
  | succ f ih =>
    intro st e h
    by_cases hne : st.S.Nonempty
    · rw [kahnRun_succ g feed f st hne] at h
      cases hv : kahnValueStep g feed (st.S.min' hne) st.st with
      | error e' =>
        rw [hv] at h
        simp only at h
        cases h
        exact kahnValueStep_error hv
      | ok ms =>
        rw [hv] at h
        cases hr : retire (st.S.min' hne) (outboundOf g (st.S.min' hne)) st.G
            (st.S.erase (st.S.min' hne)) with
        | error e' =>
          rw [hr] at h
          simp only at h
          cases h
          exact retire_error_val _ _ _ _ hr
        | ok p =>
          obtain ⟨G', S'⟩ := p
          rw [hr] at h
          exact ih _ e h
    · rw [kahnRun_empty g feed (f + 1) st hne] at h
      cases h

theorem kahnRun_L_extend (g : Graph) (feed : List (Nat × ℚ)) :
    ∀ (fuel : Nat) (st : KahnSt) (Lf : List Nat) (sf : MFState),
      kahnRun g feed fuel st = some (Except.ok (Lf, sf)) → ∃ t, Lf = st.L ++ t := by
  intro fuel
  induction fuel with
  | zero =>
    intro st Lf sf h
    by_cases hne : st.S.Nonempty
    · rw [show kahnRun g feed 0 st = none from by
        show (if st.S.Nonempty then none else _) = none
        rw [if_pos hne]] at h
      cases h
    · rw [kahnRun_empty g feed 0 st hne] at h
      cases h
      exact ⟨[], by simp⟩
  | succ f ih =>
    intro st Lf sf h
    by_cases hne : st.S.Nonempty
    · rw [kahnRun_succ g feed f st hne] at h
      cases hv : kahnValueStep g feed (st.S.min' hne) st.st with
      | error e' =>
        rw [hv] at h
        simp only at h
        cases h
      | ok ms =>
        rw [hv] at h
        cases hr : retire (st.S.min' hne) (outboundOf g (st.S.min' hne)) st.G
            (st.S.erase (st.S.min' hne)) with
        | error e' =>
          rw [hr] at h
          simp only at h
          cases h
        | ok p =>
          obtain ⟨G', S'⟩ := p
          rw [hr] at h
          obtain ⟨t, ht⟩ := ih _ _ _ h
          exact ⟨st.S.min' hne :: t, by simpa [List.append_assoc] using ht⟩
    · rw [kahnRun_empty g feed (f + 1) st hne] at h
      cases h
      exact ⟨[], by simp⟩

theorem kahnRun_no_ok (g : Graph) (feed : List (Nat × ℚ)) :
    ∀ (fuel : Nat) (st : KahnSt) (k : Nat), k ∈ st.S → ¬(outboundOf g k).Nodup →
      ∀ r, kahnRun g feed fuel st ≠ some (Except.ok r) := by
  intro fuel
  induction fuel with
  | zero =>
    intro st k hk hnd r h
    have hne : st.S.Nonempty := ⟨k, hk⟩
    rw [show kahnRun g feed 0 st = none from by
      show (if st.S.Nonempty then none else _) = none
      rw [if_pos hne]] at h
    cases h
  | succ f ih =>
    intro st k hk hnd r h
    have hne : st.S.Nonempty := ⟨k, hk⟩
    rw [kahnRun_succ g feed f st hne] at h
    cases hv : kahnValueStep g feed (st.S.min' hne) st.st with
    | error e' =>
      rw [hv] at h
      simp only at h
      cases h
    | ok ms =>
      rw [hv] at h
      cases hr : retire (st.S.min' hne) (outboundOf g (st.S.min' hne)) st.G
          (st.S.erase (st.S.min' hne)) with
      | error e' =>
        rw [hr] at h
        simp only at h
        cases h
      | ok p =>
        obtain ⟨G', S'⟩ := p
        rw [hr] at h
        by_cases hkn : st.S.min' hne = k
        · subst hkn
          obtain ⟨_, hnodup⟩ := retire_ok_sub_nodup _ _ _ _ hr
          exact hnd hnodup
        · have hkS' : k ∈ S' := by
            apply retire_S_mono _ _ _ _ _ hr
            exact Finset.mem_erase.mpr ⟨fun hc => hkn (hc ▸ rfl), hk⟩
          exact ih _ k hkS' hnd r h

theorem KInv_init {g : Graph} {feed : List (Nat × ℚ)} {Gf : DiscG} (s0 : MFState)
    (hFin : DFinal g (feed.map Prod.fst) Gf)
    (hkin : ∀ k ∈ feed.map Prod.fst, k < g.length ∧ kindOf g k = NodeKind.input)
    (hinputs : inputsClosed g) :
    KInv g feed Gf s0 ⟨(feed.map Prod.fst).toFinset, Gf, [], s0⟩ := by
  constructor
  · exact List.nodup_nil
  · intro x hx
    cases hx
  · intro x
    show x ∈ (feed.map Prod.fst).toFinset ↔ _
    rw [List.mem_toFinset]
    constructor
    · intro hx
      refine ⟨(hFin.dom_iff x).mpr (Reach.base hx), List.not_mem_nil x, ?_⟩
      intro p hp
      exfalso
      obtain ⟨hkx, hkind⟩ := hkin x hx
      obtain ⟨_, hout⟩ := (hFin.in_iff p x).mp hp
      have hmem := (mem_outboundOf.mp hout).2
      rw [hinputs x hkx hkind] at hmem
      cases hmem
    · rintro ⟨hdom, _, hall⟩
      obtain ⟨k, hk, stp⟩ := (hFin.dom_iff x).mp hdom
      cases stp with
      | refl => exact hk
      | @tail b c st' hstep =>
        exfalso
        have hb : b ∈ Gf.dom := (hFin.dom_iff b).mpr ⟨k, hk, st'⟩
        have : b ∈ Gf.inS x := (hFin.in_iff b x).mpr ⟨hb, hstep⟩
        exact List.not_mem_nil b (hall b this)
  · intro n hn
    cases hn
  · intro n _
    rfl
  · intro m p
    simp [List.not_mem_nil]
  · intro m hm
    cases hm
  · rfl
  · intro x
    rw [if_neg (by simp)]
  · rfl

theorem KInv_preserve {g : Graph} {feed : List (Nat × ℚ)} {Gf : DiscG} {s0 : MFState}
    {rank : Nat → Nat} (hacyc : acyclicRank g rank)
    (hFin : DFinal g (feed.map Prod.fst) Gf)
    {st : KahnSt} (hinv : KInv g feed Gf s0 st) (hne : st.S.Nonempty)
    {ms : MFState} (hv : kahnValueStep g feed (st.S.min' hne) st.st = Except.ok ms)
    {G' : DiscG} {S' : Finset Nat}
    (hr : retire (st.S.min' hne) (outboundOf g (st.S.min' hne)) st.G
      (st.S.erase (st.S.min' hne)) = Except.ok (G', S')) :
    KInv g feed Gf s0 ⟨S', G', st.L ++ [st.S.min' hne], ms⟩ := by
  set n := st.S.min' hne with hn
  have hnS : n ∈ st.S := st.S.min'_mem hne
  obtain ⟨hnR, hnL, hprod⟩ := (hinv.Seq n).mp hnS
  have hnotin : n ∉ outboundOf g n := by
    intro hc
    exact absurd (acyclicRank_edge hacyc hc) (lt_irrefl _)
  obtain ⟨hdom', houtn', houtx', hinmem, hinnot, hS'⟩ :=
    retire_ok_post _ _ _ _ _ hnotin hr
  have houtsn : st.G.outS n = (outboundOf g n).toFinset := by
    rw [hinv.outTodo n hnL, hFin.out_eq n hnR]
  have houts_in : ∀ m ∈ outboundOf g n, n ∈ Gf.inS m := by
    intro m hm
    exact (hFin.in_iff n m).mpr ⟨hnR, hm⟩
  have hLmem : ∀ x, x ∈ st.L ++ [n] ↔ x ∈ st.L ∨ x = n := by
    intro x
    simp
  have houts_dom : ∀ m ∈ outboundOf g n, m ∈ Gf.dom := by
    intro m hm
    exact (hFin.dom_iff m).mpr (Reach.step ((hFin.dom_iff n).mp hnR) hm)
  constructor
  · rw [List.nodup_append]
    exact ⟨hinv.nodupL, List.nodup_singleton n, by
      intro a ha hb
      rw [List.mem_singleton] at hb
      subst hb
      exact hnL ha⟩
  · intro x hx
    rcases (hLmem x).mp hx with hx | rfl
    · exact hinv.LsubR x hx
    · exact hnR
  · intro x
    rw [hS' x]
    constructor
    · intro hx
      rcases hx with hx | ⟨hxouts, hxerase⟩
      · obtain ⟨hxn, hxS⟩ := Finset.mem_erase.mp hx
        obtain ⟨hxR, hxL, hxprod⟩ := (hinv.Seq x).mp hxS
        refine ⟨hxR, ?_, ?_⟩
        · intro hc
          rcases (hLmem x).mp hc with hc | rfl
          · exact hxL hc
          · exact hxn rfl
        · intro p hp
          exact (hLmem p).mpr (Or.inl (hxprod p hp))
      · have hxn : x ≠ n := fun hc => hnotin (hc ▸ hxouts)
        have hxL : x ∉ st.L := by
          intro hc
          have hpre := hinv.orderOK x hc n (houts_in x hxouts)
          exact hnL (precedes_mem_left hpre)
        refine ⟨houts_dom x hxouts, ?_, ?_⟩
        · intro hc
          rcases (hLmem x).mp hc with hc | rfl
          · exact hxL hc
          · exact hxn rfl
        · intro p hp
          by_cases hpL : p ∈ st.L
          · exact (hLmem p).mpr (Or.inl hpL)
          · have hpin : p ∈ st.G.inS x := (hinv.inEq x p).mpr ⟨hp, hpL⟩
            have := erase_empty_iff.mp hxerase p hpin
            exact (hLmem p).mpr (Or.inr this)
    · rintro ⟨hxR, hxL', hxprod'⟩
      have hxn : x ≠ n := fun hc => hxL' ((hLmem x).mpr (Or.inr hc))
      have hxL : x ∉ st.L := fun hc => hxL' ((hLmem x).mpr (Or.inl hc))
      by_cases hnin : n ∈ Gf.inS x
      · right
        have hxouts : x ∈ outboundOf g n := ((hFin.in_iff n x).mp hnin).2
        refine ⟨hxouts, ?_⟩
        rw [erase_empty_iff]
        intro q hq
        obtain ⟨hqGf, hqL⟩ := (hinv.inEq x q).mp hq
        rcases (hLmem q).mp (hxprod' q hqGf) with hc | rfl
        · exact absurd hc hqL
        · rfl
      · left
        apply Finset.mem_erase.mpr
        refine ⟨hxn, ?_⟩
        apply (hinv.Seq x).mpr
        refine ⟨hxR, hxL, ?_⟩
        intro p hp
        rcases (hLmem p).mp (hxprod' p hp) with hc | rfl
        · exact hc
        · exact absurd hp hnin
  · intro x hx
    rcases (hLmem x).mp hx with hx | rfl
    · have hxn : x ≠ n := fun hc => hnL (hc ▸ hx)
      rw [houtx' x hxn]
      exact hinv.outDone x hx
    · rw [houtn', houtsn, Finset.sdiff_self]
  · intro x hx
    have hxn : x ≠ n := fun hc => hx ((hLmem x).mpr (Or.inr hc))
    have hxL : x ∉ st.L := fun hc => hx ((hLmem x).mpr (Or.inl hc))
    rw [houtx' x hxn]
    exact hinv.outTodo x hxL
  · intro m p
    by_cases hmouts : m ∈ outboundOf g n
    · rw [hinmem m hmouts]
      rw [Finset.mem_erase]
      constructor
      · rintro ⟨hpn, hpin⟩
        obtain ⟨hpGf, hpL⟩ := (hinv.inEq m p).mp hpin
        refine ⟨hpGf, ?_⟩
        intro hc
        rcases (hLmem p).mp hc with hc | rfl
        · exact hpL hc
        · exact hpn rfl
      · rintro ⟨hpGf, hpL'⟩
        have hpn : p ≠ n := fun hc => hpL' ((hLmem p).mpr (Or.inr hc))
        have hpL : p ∉ st.L := fun hc => hpL' ((hLmem p).mpr (Or.inl hc))
        exact ⟨hpn, (hinv.inEq m p).mpr ⟨hpGf, hpL⟩⟩
    · rw [hinnot m hmouts]
      constructor
      · intro hpin
        obtain ⟨hpGf, hpL⟩ := (hinv.inEq m p).mp hpin
        refine ⟨hpGf, ?_⟩
        intro hc
        rcases (hLmem p).mp hc with hc | rfl
        · exact hpL hc
        · exact hmouts ((hFin.in_iff n m).mp hpGf).2
      · rintro ⟨hpGf, hpL'⟩
        have hpL : p ∉ st.L := fun hc => hpL' ((hLmem p).mpr (Or.inl hc))
        exact (hinv.inEq m p).mpr ⟨hpGf, hpL⟩
  · intro m hm p hp
    rcases (hLmem m).mp hm with hm' | rfl
    · exact precedes_append (hinv.orderOK m hm' p hp)
    · exact precedes_to_append n (hprod p hp)
  · rw [hdom']
    exact hinv.domEq
  · intro x
    rcases kahnValueStep_ok_inv hv with ⟨hkind, v, hfl, rfl⟩ | ⟨hkind, rfl⟩
    · by_cases hxn : x = n
      · subst hxn
        show Function.update st.st.value n (some v) n = _
        rw [Function.update_same, if_pos ⟨(hLmem n).mpr (Or.inr rfl), hkind⟩, hfl]
      · show Function.update st.st.value n (some v) x = _
        rw [Function.update_noteq hxn, hinv.valEq x]
        by_cases hcond : x ∈ st.L ∧ kindOf g x = NodeKind.input
        · rw [if_pos hcond, if_pos ⟨(hLmem x).mpr (Or.inl hcond.1), hcond.2⟩]
        · rw [if_neg hcond, if_neg (by
            rintro ⟨hxL', hxk⟩
            rcases (hLmem x).mp hxL' with hc | rfl
            · exact hcond ⟨hc, hxk⟩
            · exact hxn rfl)]
    · rw [hinv.valEq x]
      by_cases hcond : x ∈ st.L ∧ kindOf g x = NodeKind.input
      · rw [if_pos hcond, if_pos ⟨(hLmem x).mpr (Or.inl hcond.1), hcond.2⟩]
      · rw [if_neg hcond, if_neg (by
          rintro ⟨hxL', hxk⟩
          rcases (hLmem x).mp hxL' with hc | rfl
          · exact hcond ⟨hc, hxk⟩
          · exact hkind hxk)]
  · rcases kahnValueStep_ok_inv hv with ⟨_, v, _, rfl⟩ | ⟨_, rfl⟩
    · exact hinv.gradEq
    · exact hinv.gradEq

theorem kahnRun_ok_inv {g : Graph} {feed : List (Nat × ℚ)} {Gf : DiscG} {s0 : MFState}
    {rank : Nat → Nat} (hacyc : acyclicRank g rank)
    (hFin : DFinal g (feed.map Prod.fst) Gf) :
    ∀ (fuel : Nat) (st : KahnSt) (Lf : List Nat) (sf : MFState),
      KInv g feed Gf s0 st →
      kahnRun g feed fuel st = some (Except.ok (Lf, sf)) →
      ∃ stf : KahnSt, stf.L = Lf ∧ stf.st = sf ∧ stf.S = ∅ ∧ KInv g feed Gf s0 stf ∧
        (∀ x ∈ Lf, x ∈ st.L ∨ (outboundOf g x).Nodup) := by
  intro fuel
  induction fuel with
  | zero =>
    intro st Lf sf hinv h
    by_cases hne : st.S.Nonempty
    · rw [show kahnRun g feed 0 st = none from by
        show (if st.S.Nonempty then none else _) = none
        rw [if_pos hne]] at h
      cases h
    · rw [kahnRun_empty g feed 0 st hne] at h
      cases h
      exact ⟨st, rfl, rfl, Finset.not_nonempty_iff_eq_empty.mp hne, hinv,
        fun x hx => Or.inl hx⟩
  | succ f ih =>
    intro st Lf sf hinv h
    by_cases hne : st.S.Nonempty
    · rw [kahnRun_succ g feed f st hne] at h
      cases hv : kahnValueStep g feed (st.S.min' hne) st.st with
      | error e' =>
        rw [hv] at h
        simp only at h
        cases h
      | ok ms =>
        rw [hv] at h
        cases hr : retire (st.S.min' hne) (outboundOf g (st.S.min' hne)) st.G
            (st.S.erase (st.S.min' hne)) with
        | error e' =>
          rw [hr] at h
          simp only at h
          cases h
        | ok p =>
          obtain ⟨G', S'⟩ := p
          rw [hr] at h
          have hinv' := KInv_preserve hacyc hFin hinv hne hv hr
          obtain ⟨stf, h1, h2, h3, h4, h5⟩ := ih _ _ _ hinv' h
          refine ⟨stf, h1, h2, h3, h4, ?_⟩
          intro x hx
          rcases h5 x hx with hx' | hnd
          · rcases List.mem_append.mp hx' with hx' | hx'
            · exact Or.inl hx'
            · rw [List.mem_singleton] at hx'
              subst hx'
              exact Or.inr (retire_ok_sub_nodup _ _ _ _ hr).2
          · exact Or.inr hnd
    · rw [kahnRun_empty g feed (f + 1) st hne] at h
      cases h
      exact ⟨st, rfl, rfl, Finset.not_nonempty_iff_eq_empty.mp hne, hinv,
        fun x hx => Or.inl hx⟩

theorem kahnRun_no_error {g : Graph} {feed : List (Nat × ℚ)} {Gf : DiscG} {s0 : MFState}
    {rank : Nat → Nat} (hacyc : acyclicRank g rank)
    (hFin : DFinal g (feed.map Prod.fst) Gf)
    (hnodupE : nodupEdges g) (hinputs : inputsClosed g) :
    ∀ (fuel : Nat) (st : KahnSt) (e : MFError), KInv g feed Gf s0 st →
      kahnRun g feed fuel st ≠ some (Except.error e) := by
  intro fuel
  induction fuel with
  | zero =>
    intro st e hinv h
    by_cases hne : st.S.Nonempty
    · rw [show kahnRun g feed 0 st = none from by
        show (if st.S.Nonempty then none else _) = none
        rw [if_pos hne]] at h
      cases h
    · rw [kahnRun_empty g feed 0 st hne] at h
      cases h
  | succ f ih =>
    intro st e hinv h
    by_cases hne : st.S.Nonempty
    · rw [kahnRun_succ g feed f st hne] at h
      set n := st.S.min' hne with hn
      have hnS : n ∈ st.S := st.S.min'_mem hne
      obtain ⟨hnR, hnL, hprod⟩ := (hinv.Seq n).mp hnS
      have hnlt : n < g.length := hFin.domLt n hnR
      have hvok : ∃ ms, kahnValueStep g feed n st.st = Except.ok ms := by
        apply kahnValueStep_isOk
        intro hkind
        apply feedLookup_isSome
        apply reach_empty_inbound_mem ((hFin.dom_iff n).mp hnR)
        exact hinputs n hnlt hkind
      obtain ⟨ms, hv⟩ := hvok
      rw [hv] at h
      have hrok : ∃ r, retire n (outboundOf g n) st.G (st.S.erase n) = Except.ok r := by
        apply retire_ok_of_pre
        · exact nodup_outboundOf hnodupE n
        · rw [hinv.domEq]
          exact hnR
        · rw [hinv.outTodo n hnL]
          exact hFin.out_eq n hnR
        · intro m hm
          rw [hinv.domEq]
          exact (hFin.dom_iff m).mpr (Reach.step ((hFin.dom_iff n).mp hnR) hm)
        · intro m hm
          exact (hinv.inEq m n).mpr ⟨(hFin.in_iff n m).mpr ⟨hnR, hm⟩, hnL⟩
      obtain ⟨⟨G', S'⟩, hr⟩ := hrok
      rw [hr] at h
      exact ih _ e (KInv_preserve hacyc hFin hinv hne hv hr) h
    · rw [kahnRun_empty g feed (f + 1) st hne] at h
      cases h

theorem KInv_final {g : Graph} {feed : List (Nat × ℚ)} {Gf : DiscG} {s0 : MFState}
    {rank : Nat → Nat} (hacyc : acyclicRank g rank)
    (hFin : DFinal g (feed.map Prod.fst) Gf)
    {stf : KahnSt} (hinv : KInv g feed Gf s0 stf) (hS : stf.S = ∅) :
    ∀ x, x ∈ stf.L ↔ x ∈ Gf.dom := by
  intro x
  constructor
  · exact hinv.LsubR x
  · intro hx
    by_contra hxL
    have hT : (Gf.dom.filter (fun y => y ∉ stf.L)).Nonempty :=
      ⟨x, Finset.mem_filter.mpr ⟨hx, hxL⟩⟩
    obtain ⟨y, hy, hymin⟩ := Finset.exists_min_image _ rank hT
    obtain ⟨hyR, hyL⟩ := Finset.mem_filter.mp hy
    have hyprod : ∀ p ∈ Gf.inS y, p ∈ stf.L := by
      intro p hp
      obtain ⟨hpR, hpout⟩ := (hFin.in_iff p y).mp hp
      by_contra hpL
      have hpT : p ∈ Gf.dom.filter (fun z => z ∉ stf.L) :=
        Finset.mem_filter.mpr ⟨hpR, hpL⟩
      have := hymin p hpT
      have hlt := acyclicRank_edge hacyc hpout
      omega
    have : y ∈ stf.S := (hinv.Seq y).mpr ⟨hyR, hyL, hyprod⟩
    rw [hS] at this
    cases this

theorem kahnMeasure_init_le {g : Graph} {keys : List Nat} {Gf : DiscG}
    (hFin : DFinal g keys Gf) (s0 : MFState) :
    kahnMeasure ⟨keys.toFinset, Gf, [], s0⟩ ≤ keys.length + totalIn g := by
  show keys.toFinset.card + ∑ m ∈ Gf.dom, (Gf.inS m).card ≤ keys.length + totalIn g
  have h1 : keys.toFinset.card ≤ keys.length := keys.toFinset_card_le
  have h2 : ∑ m ∈ Gf.dom, (Gf.inS m).card ≤ totalIn g := by
    have hsub : Gf.dom ⊆ Finset.range g.length := by
      intro m hm
      exact Finset.mem_range.mpr (hFin.domLt m hm)
    have hbound : ∀ m ∈ Gf.dom, (Gf.inS m).card ≤ (inboundOf g m).length := by
      intro m _
      have hss : Gf.inS m ⊆ (inboundOf g m).toFinset := by
        intro p hp
        obtain ⟨_, hpout⟩ := (hFin.in_iff p m).mp hp
        exact List.mem_toFinset.mpr (mem_outboundOf.mp hpout).2
      calc (Gf.inS m).card ≤ (inboundOf g m).toFinset.card := Finset.card_le_card hss
      _ ≤ (inboundOf g m).length := (inboundOf g m).toFinset_card_le
    calc ∑ m ∈ Gf.dom, (Gf.inS m).card
        ≤ ∑ m ∈ Gf.dom, (inboundOf g m).length := Finset.sum_le_sum hbound
    _ ≤ ∑ m ∈ Finset.range g.length, (inboundOf g m).length :=
        Finset.sum_le_sum_of_subset hsub
    _ = totalIn g := rfl
  omega

theorem kahnRun_mono (g : Graph) (feed : List (Nat × ℚ)) :
    ∀ (fuel fuel' : Nat) (st : KahnSt) (r : Except MFError (List Nat × MFState)),
      kahnRun g feed fuel st = some r → fuel ≤ fuel' → kahnRun g feed fuel' st = some r := by
  intro fuel
  induction fuel with
  | zero =>
    intro fuel' st r h _
    by_cases hne : st.S.Nonempty
    · rw [show kahnRun g feed 0 st = none from by
        show (if st.S.Nonempty then none else _) = none
        rw [if_pos hne]] at h
      cases h
    · rw [kahnRun_empty g feed 0 st hne] at h
      rw [kahnRun_empty g feed fuel' st hne]
      exact h
  | succ f ih =>
    intro fuel' st r h hle
    by_cases hne : st.S.Nonempty
    · cases fuel' with
      | zero => omega
      | succ f' =>
        rw [kahnRun_succ g feed f st hne] at h
        rw [kahnRun_succ g feed f' st hne]
        cases hv : kahnValueStep g feed (st.S.min' hne) st.st with
        | error e =>
          rw [hv] at h
          exact h
        | ok ms =>
          rw [hv] at h
          cases hr : retire (st.S.min' hne) (outboundOf g (st.S.min' hne)) st.G
              (st.S.erase (st.S.min' hne)) with
          | error e =>
            rw [hr] at h
            exact h
          | ok p =>
            obtain ⟨G', S'⟩ := p
            rw [hr] at h
            exact ih f' _ r h (by omega)
    · rw [kahnRun_empty g feed (f + 1) st hne] at h
      rw [kahnRun_empty g feed fuel' st hne]
      exact h

/-- A successful, invariant-characterized run of `topological_sort` on an
acyclic graph with set-valued edges: the shared backbone of the scheduler
theorems. -/
theorem topological_sort_run {g : Graph} {feed : List (Nat × ℚ)} {rank : Nat → Nat}
    (hinputs : inputsClosed g) (hacyc : acyclicRank g rank) (hnodupE : nodupEdges g)
    (hkin : ∀ k ∈ feed.map Prod.fst, k < g.length ∧ kindOf g k = NodeKind.input)
    (s : MFState) :
    ∃ (Gf : DiscG) (stf : KahnSt),
      DFinal g (feed.map Prod.fst) Gf ∧
      (∀ fuel, sortFuel g rank feed ≤ fuel →
        topological_sort g feed s fuel = some (Except.ok (stf.L, stf.st))) ∧
      stf.S = ∅ ∧ KInv g feed Gf s stf ∧ (∀ x, x ∈ stf.L ↔ x ∈ Gf.dom) := by
  set keys := feed.map Prod.fst with hkeys
  have hkLt : ∀ k ∈ keys, k < g.length := fun k hk => (hkin k hk).1
  set f0 := sortFuel g rank feed with hf0
  have hdisc0 : (discover g f0 keys initDiscG).isSome := by
    apply discover_suff hacyc
    · exact hkLt
    · exact le_max_left ..
  obtain ⟨Gf, hGf⟩ := Option.isSome_iff_exists.mp hdisc0
  have hFin : DFinal g keys Gf :=
    discover_sound g keys f0 keys initDiscG (DInv_init g keys hkLt) Gf hGf
  have hinv0 : KInv g feed Gf s ⟨keys.toFinset, Gf, [], s⟩ :=
    KInv_init s hFin hkin hinputs
  have hkahn0 : (kahnRun g feed f0 ⟨keys.toFinset, Gf, [], s⟩).isSome := by
    apply kahnRun_suff
    calc kahnMeasure ⟨keys.toFinset, Gf, [], s⟩ ≤ keys.length + totalIn g :=
      kahnMeasure_init_le hFin s
    _ ≤ f0 := le_max_right ..
  obtain ⟨r, hr⟩ := Option.isSome_iff_exists.mp hkahn0
  have hok : ∃ L sf, r = Except.ok (L, sf) := by
    cases r with
    | error e => exact absurd hr (kahnRun_no_error hacyc hFin hnodupE hinputs f0 _ e hinv0)
    | ok p => exact ⟨p.1, p.2, by rw [Prod.mk.eta]⟩
  obtain ⟨L, sf, rfl⟩ := hok
  obtain ⟨stf, hL, hst, hS, hinvf, _⟩ := kahnRun_ok_inv hacyc hFin f0 _ L sf hinv0 hr
  refine ⟨Gf, stf, hFin, ?_, hS, hinvf, KInv_final hacyc hFin hinvf hS⟩
  intro fuel hfuel
  unfold topological_sort
  rw [discover_mono g f0 fuel keys initDiscG Gf hGf hfuel]
  rw [hL, hst]
  exact kahnRun_mono g feed f0 fuel _ _ hr hfuel

/-! ### Divergence of discovery on reachable cycles -/
theorem steps_first {g : Graph} {a c : Nat} (h : Steps g a c) :
    a = c ∨ ∃ m ∈ outboundOf g a, Steps g m c := by
  induction h with
  | refl => exact Or.inl rfl
  | @tail b c' st hstep ih =>
    rcases ih with rfl | ⟨m, hm, hmc⟩
    · exact Or.inr ⟨c', hstep, Steps.refl c'⟩
    · exact Or.inr ⟨m, hm, Steps.tail hmc hstep⟩

theorem reachesCycle_step {g : Graph} {n : Nat} (h : reachesCycle g n) :
    ∃ m ∈ outboundOf g n, reachesCycle g m := by
  obtain ⟨c, hst, hcyc⟩ := h
  rcases steps_first hst with rfl | ⟨m, hm, hmc⟩
  · obtain ⟨m, hm, hmc⟩ := hcyc
    exact ⟨m, hm, n, hmc, m, hm, hmc⟩
  · exact ⟨m, hm, c, hmc, hcyc⟩

theorem discover_cycle_diverges (g : Graph) :
    ∀ (fuel : Nat) (q : List Nat) (G : DiscG),
      (∃ x ∈ q, reachesCycle g x) → discover g fuel q G = none := by
  intro fuel
  induction fuel with
  | zero =>
    intro q G hq
    obtain ⟨x, hx, _⟩ := hq
    cases q with
    | nil => cases hx
    | cons n rest => rfl
  | succ f ih =>
    intro q G hq
    obtain ⟨x, hx, hcyc⟩ := hq
    cases q with
    | nil => cases hx
    | cons n rest =>
      show discover g f (rest ++ outboundOf g n) (discProcess g G n) = none
      apply ih
      rcases List.mem_cons.mp hx with rfl | hx'
      · obtain ⟨m, hm, hmc⟩ := reachesCycle_step hcyc
        exact ⟨m, List.mem_append_right _ hm, hmc⟩
      · exact ⟨x, List.mem_append_left _ hx', hcyc⟩

/-! ### `forward_pass` on concrete order shapes -/
theorem forward_pass_nil (σf : ℚ → ℚ) (g : Graph) (outputNode : Nat) (s : MFState) :
    forward_pass σf g [] outputNode s = (Except.ok (s.value outputNode), s) := rfl

theorem forwardNode_input {σf : ℚ → ℚ} {g : Graph} {i : Nat} (s : MFState)
    (hk : kindOf g i = NodeKind.input) :
    forwardNode σf g i s = Except.error MFError.notImplementedError := by
  unfold forwardNode
  rw [hk]

theorem forward_pass_input_head {σf : ℚ → ℚ} {g : Graph} {h : Nat} {t : List Nat}
    {outputNode : Nat} (s : MFState) (hk : kindOf g h = NodeKind.input) :
    forward_pass σf g (h :: t) outputNode s = (Except.error MFError.notImplementedError, s) := by
  unfold forward_pass
  rw [show runForwards σf g (h :: t) s = (s, some MFError.notImplementedError) from by
    unfold runForwards
    rw [forwardNode_input s hk]]

theorem precedes_head_not {t : List Nat} {h p : Nat} (hnd : (h :: t).Nodup)
    (hpre : precedes (h :: t) p h) : False := by
  obtain ⟨l1, l2, l3, heq⟩ := hpre
  have hcount : (h :: t).count h ≤ 1 := List.nodup_iff_count_le_one.mp hnd h
  cases l1 with
  | nil =>
    rw [List.nil_append] at heq
    have hph : p = h := by
      have hh := congrArg List.head? heq
      simp only [List.head?_cons] at hh
      exact (Option.some_inj.mp hh).symm
    subst hph
    rw [heq] at hcount
    simp only [List.count_cons_self, List.count_append] at hcount
    omega
  | cons a l1' =>
    have hah : a = h := by
      have hh := congrArg List.head? heq
      rw [List.cons_append] at hh
      simp only [List.head?_cons] at hh
      exact (Option.some_inj.mp hh).symm
    subst hah
    rw [heq] at hcount
    simp only [List.count_cons_self, List.count_append] at hcount
    omega

theorem dom_no_producer_mem_keys {g : Graph} {keys : List Nat} {Gf : DiscG}
    (hFin : DFinal g keys Gf) {x : Nat}
    (hdom : x ∈ Gf.dom) (hnoprod : ∀ p, p ∉ Gf.inS x) : x ∈ keys := by
  obtain ⟨k, hk, stp⟩ := (hFin.dom_iff x).mp hdom
  cases stp with
  | refl => exact hk
  | @tail b c st' hstep =>
    exfalso
    have hb : b ∈ Gf.dom := (hFin.dom_iff b).mpr ⟨k, hk, st'⟩
    exact hnoprod b ((hFin.in_iff b x).mpr ⟨hb, hstep⟩)

/-! ### Claim theorems -/
/-- C1: for every acyclic graph (inputs have no inbound nodes, every
(producer, consumer) edge has multiplicity one, acyclicity witnessed by a
rank) reachable from the keys of a feed mapping whose keys are `Input` nodes,
`topological_sort(feed_dict)` returns a sequence that is a permutation of
exactly the nodes reachable from the feed keys, and for every dependency edge
from node A to node B in that subgraph, A appears before B in the returned
sequence. -/
theorem topological_sort_correct (g : Graph) (feed : List (Nat × ℚ)) (s : MFState)
    (rank : Nat → Nat)
    (hinputs : inputsClosed g) (hacyc : acyclicRank g rank) (hnodupE : nodupEdges g)
    (hkin : ∀ k ∈ feed.map Prod.fst, k < g.length ∧ kindOf g k = NodeKind.input) :
    ∃ L s', (∀ fuel, sortFuel g rank feed ≤ fuel →
        topological_sort g feed s fuel = some (Except.ok (L, s'))) ∧
      L.Nodup ∧
      (∀ x, x ∈ L ↔ Reach g (feed.map Prod.fst) x) ∧
      (∀ m, m < g.length → ∀ n ∈ inboundOf g m, Reach g (feed.map Prod.fst) n →
        precedes L n m) := by
  obtain ⟨Gf, stf, hFin, hrun, hS, hinvf, hLdom⟩ :=
    topological_sort_run hinputs hacyc hnodupE hkin s
  refine ⟨stf.L, stf.st, hrun, hinvf.nodupL, ?_, ?_⟩
  · intro x
    rw [hLdom x, hFin.dom_iff x]
  · intro m hm n hn hreach
    have hedge : m ∈ outboundOf g n := mem_outboundOf.mpr ⟨hm, hn⟩
    have hmreach : Reach g (feed.map Prod.fst) m := hreach.step hedge
    have hmL : m ∈ stf.L := (hLdom m).mpr ((hFin.dom_iff m).mpr hmreach)
    have hnGf : n ∈ Gf.inS m :=
      (hFin.in_iff n m).mpr ⟨(hFin.dom_iff n).mpr hreach, hedge⟩
    exact hinvf.orderOK m hmL n hnGf

/-- Witness for C1 on the nn.py Add graph, with the identity rank. -/
theorem topological_sort_correct_witness :
    (inputsClosed addProgram ∧ acyclicRank addProgram id ∧ nodupEdges addProgram ∧
      (∀ k ∈ nnFeed.map Prod.fst, k < addProgram.length ∧
        kindOf addProgram k = NodeKind.input)) ∧
    (∃ L s', (∀ fuel, sortFuel addProgram id nnFeed ≤ fuel →
        topological_sort addProgram nnFeed initState fuel = some (Except.ok (L, s'))) ∧
      L.Nodup ∧
      (∀ x, x ∈ L ↔ Reach addProgram (nnFeed.map Prod.fst) x) ∧
      (∀ m, m < addProgram.length → ∀ n ∈ inboundOf addProgram m,
        Reach addProgram (nnFeed.map Prod.fst) n → precedes L n m)) :=
  ⟨⟨by decide, by decide, by decide, by decide⟩,
    topological_sort_correct addProgram nnFeed initState id (by decide) (by decide)
      (by decide) (by decide)⟩

/-- C2 (code bug): nn.py cannot print `19` and `200`.  Constructing
`Mul(x, y, z)` raises `NameError` (`Mul.__init__` evaluates the undefined
name `inputs`), and even on the Add-only prefix of the script, the pipeline
`topological_sort` + `forward_pass` raises `NotImplementedError` as soon as
`forward()` runs on an `Input` node (whose `forward` was never bound), instead
of returning `19`. -/
theorem nn_script_faults :
    construct nnProgram = Except.error MFError.nameError ∧
    sortOrder addProgram nnFeed initState 50 = some (Except.ok [0, 1, 2, 3]) ∧
    runGraphForward idKernel addProgram nnFeed 3 initState 50 =
      some (Except.error MFError.notImplementedError) :=
  ⟨by decide, by decide, by decide⟩

/-- C3 (code bug): `forward()` on an `Input` node raises the
unimplemented-operation fault, because the `forward` defined inside
`Input.__init__` is a local function that is never bound as a method, so the
call dispatches to `Node.forward`. -/
theorem input_forward_raises (σf : ℚ → ℚ) (g : Graph) (i : Nat) (s : MFState)
    (h : kindOf g i = NodeKind.input) :
    forwardNode σf g i s = Except.error MFError.notImplementedError :=
  forwardNode_input s h

/-- Witness for C3 on a concrete `Input` node. -/
theorem input_forward_raises_witness :
    kindOf nnProgram 0 = NodeKind.input ∧
    forwardNode idKernel nnProgram 0 initState = Except.error MFError.notImplementedError :=
  ⟨by decide, input_forward_raises idKernel nnProgram 0 initState (by decide)⟩

/-- C4 (code bug): `backward()` on any constructed `Sigmoid` (one inbound
node) raises `AttributeError`: the gradient-initializing dict comprehension
evaluates `np.zeros_like(n.like)` and nodes have no attribute `like`, so no
fan-out accumulation ever happens. -/
theorem sigmoid_backward_raises (g : Graph) (i : Nat) (s : MFState)
    (h1 : kindOf g i = NodeKind.sigmoid) (h2 : inboundOf g i ≠ []) :
    backwardNode g i s = Except.error MFError.attributeError := by
  unfold backwardNode
  rw [h1]
  cases hib : inboundOf g i with
  | nil => exact absurd hib h2
  | cons a t => rfl

/-- Witness for C4 on a concrete `Sigmoid` node. -/
theorem sigmoid_backward_raises_witness :
    kindOf sigProgram 1 = NodeKind.sigmoid ∧ inboundOf sigProgram 1 ≠ [] ∧
    backwardNode sigProgram 1 initState = Except.error MFError.attributeError :=
  ⟨by decide, by decide,
    sigmoid_backward_raises sigProgram 1 initState (by decide) (by decide)⟩

/-- C5 (corrected): if any feed key reaches a cycle — i.e. the reachable
subgraph contains a cycle — `topological_sort` does not terminate for any
amount of fuel: the discovery loop re-enqueues every outbound node
unconditionally, so its queue never empties.  No truncated order is returned,
and no error is raised; the call simply never returns. -/
theorem topological_sort_cycle_diverges (g : Graph) (feed : List (Nat × ℚ)) (s : MFState)
    (h : ∃ k ∈ feed.map Prod.fst, reachesCycle g k) :
    sortDiverges g feed s := by
  intro fuel
  unfold topological_sort
  rw [discover_cycle_diverges g fuel _ initDiscG h]

theorem cycleProgram_reaches :
    ∃ k ∈ cycleFeed.map Prod.fst, reachesCycle cycleProgram k :=
  ⟨0, by decide, 1, Steps.tail (Steps.refl 0) (by decide), 2, by decide,
    Steps.tail (Steps.refl 2) (by decide)⟩

/-- C5 counterexample: on the concrete graph with a back-edge (node 1 reads
nodes 0 and 2, node 2 reads node 1) and feed `{node 0 ↦ 4}`, the sort returns
nothing at every fuel — it diverges rather than terminating with the cycle
nodes silently omitted. -/
theorem topological_sort_cycle_counterexample :
    sortDiverges cycleProgram cycleFeed initState := by
  intro fuel
  unfold topological_sort
  rw [discover_cycle_diverges cycleProgram fuel _ initDiscG cycleProgram_reaches]

/-- Witness for C5's theorem at the concrete cyclic graph. -/
theorem topological_sort_cycle_diverges_witness :
    (∃ k ∈ cycleFeed.map Prod.fst, reachesCycle cycleProgram k) ∧
    sortDiverges cycleProgram cycleFeed initState :=
  ⟨cycleProgram_reaches,
    topological_sort_cycle_diverges cycleProgram cycleFeed initState cycleProgram_reaches⟩

/-- C6: for every duplicate-free list of trainable source nodes, each with a
self entry in its gradients map and a numeric prior value, and every learning
rate, `sgd_update(trainables, learning_rate)` succeeds, sets each trainable's
value to its prior value minus `learning_rate * gradients[self]`, and leaves
every other value slot and the whole gradients store unchanged. -/
theorem sgd_update_correct (g : Graph) (trainables : List Nat) (learning_rate : ℚ)
    (s : MFState)
    (htr : ∀ t ∈ trainables, kindOf g t = NodeKind.input)
    (hnodup : trainables.Nodup)
    (hself : ∀ t ∈ trainables, (s.gradients t t).isSome ∧ (s.value t).isSome) :
    ∃ s', sgd_update trainables learning_rate s = Except.ok s' ∧
      (∀ t ∈ trainables, ∀ v p : ℚ, s.value t = some v → s.gradients t t = some p →
        s'.value t = some (v - learning_rate * p)) ∧
      (∀ x, x ∉ trainables → s'.value x = s.value x) ∧
      s'.gradients = s.gradients :=
  sgd_update_fold trainables learning_rate s hnodup hself

/-- Witness for C6: one trainable with value 3 and self-gradient 2 at
learning rate 1/2. -/
theorem sgd_update_correct_witness :
    ((∀ t ∈ [0], kindOf dupProgram t = NodeKind.input) ∧ ([0] : List Nat).Nodup ∧
      (∀ t ∈ [0], (sgdState.gradients t t).isSome ∧ (sgdState.value t).isSome)) ∧
    (∃ s', sgd_update [0] (1 / 2) sgdState = Except.ok s' ∧
      (∀ t ∈ [0], ∀ v p : ℚ, sgdState.value t = some v → sgdState.gradients t t = some p →
        s'.value t = some (v - (1 / 2) * p)) ∧
      (∀ x, x ∉ ([0] : List Nat) → s'.value x = sgdState.value x) ∧
      s'.gradients = sgdState.gradients) :=
  ⟨⟨by decide, by decide, by decide⟩,
    sgd_update_correct dupProgram [0] (1 / 2) sgdState (by decide) (by decide) (by decide)⟩

/-- C7: after `topological_sort(feed_dict)` returns on an acyclic graph whose
feed keys are `Input` nodes, every fed `Input` node's value slot holds its fed
value, while the value slot of every non-source node — and the entire
gradients store — is unchanged: scheduling writes only fed source values. -/
theorem topological_sort_values (g : Graph) (feed : List (Nat × ℚ)) (s : MFState)
    (rank : Nat → Nat)
    (hinputs : inputsClosed g) (hacyc : acyclicRank g rank) (hnodupE : nodupEdges g)
    (hknodup : (feed.map Prod.fst).Nodup)
    (hkin : ∀ k ∈ feed.map Prod.fst, k < g.length ∧ kindOf g k = NodeKind.input) :
    ∃ L s', (∀ fuel, sortFuel g rank feed ≤ fuel →
        topological_sort g feed s fuel = some (Except.ok (L, s'))) ∧
      (∀ k v, (k, v) ∈ feed → s'.value k = some v) ∧
      (∀ x, kindOf g x ≠ NodeKind.input → s'.value x = s.value x) ∧
      s'.gradients = s.gradients := by
  obtain ⟨Gf, stf, hFin, hrun, hS, hinvf, hLdom⟩ :=
    topological_sort_run hinputs hacyc hnodupE hkin s
  refine ⟨stf.L, stf.st, hrun, ?_, ?_, hinvf.gradEq⟩
  · intro k v hkv
    have hk : k ∈ feed.map Prod.fst := List.mem_map.mpr ⟨(k, v), hkv, rfl⟩
    have hkL : k ∈ stf.L := (hLdom k).mpr ((hFin.dom_iff k).mpr (Reach.base hk))
    rw [hinvf.valEq k, if_pos ⟨hkL, (hkin k hk).2⟩]
    exact feedLookup_eq hknodup hkv
  · intro x hx
    rw [hinvf.valEq x, if_neg (fun hc => hx hc.2)]

/-- Witness for C7 on the nn.py Add graph. -/
theorem topological_sort_values_witness :
    (inputsClosed addProgram ∧ acyclicRank addProgram id ∧ nodupEdges addProgram ∧
      (nnFeed.map Prod.fst).Nodup ∧
      (∀ k ∈ nnFeed.map Prod.fst, k < addProgram.length ∧
        kindOf addProgram k = NodeKind.input)) ∧
    (∃ L s', (∀ fuel, sortFuel addProgram id nnFeed ≤ fuel →
        topological_sort addProgram nnFeed initState fuel = some (Except.ok (L, s'))) ∧
      (∀ k v, (k, v) ∈ nnFeed → s'.value k = some v) ∧
      (∀ x, kindOf addProgram x ≠ NodeKind.input → s'.value x = initState.value x) ∧
      s'.gradients = initState.gradients) :=
  ⟨⟨by decide, by decide, by decide, by decide, by decide⟩,
    topological_sort_values addProgram nnFeed initState id (by decide) (by decide)
      (by decide) (by decide) (by decide)⟩

/-- C8: with the topological order produced by `topological_sort` on an
acyclic graph, running `forward_pass` twice in succession with no mutation in
between produces identical results: identical output and post-state, or
identically the same fault.  (In this code base the second disjunct is what
actually occurs on any nonempty order: the first ordered node is a fed
`Input`, whose `forward()` raises `NotImplementedError` without mutating
anything, so both calls fault identically; an empty order trivially returns
the same output value twice.) -/
theorem forward_pass_idempotent (σf : ℚ → ℚ) (g : Graph) (feed : List (Nat × ℚ))
    (s : MFState) (rank : Nat → Nat)
    (hinputs : inputsClosed g) (hacyc : acyclicRank g rank) (hnodupE : nodupEdges g)
    (hkin : ∀ k ∈ feed.map Prod.fst, k < g.length ∧ kindOf g k = NodeKind.input) :
    ∃ L s', (∀ fuel, sortFuel g rank feed ≤ fuel →
        topological_sort g feed s fuel = some (Except.ok (L, s'))) ∧
      ∀ outputNode,
        forward_pass σf g L outputNode (forward_pass σf g L outputNode s').2 =
          forward_pass σf g L outputNode s' := by
  obtain ⟨Gf, stf, hFin, hrun, hS, hinvf, hLdom⟩ :=
    topological_sort_run hinputs hacyc hnodupE hkin s
  refine ⟨stf.L, stf.st, hrun, ?_⟩
  intro outputNode
  cases hL : stf.L with
  | nil => rfl
  | cons h t =>
    have hhL : h ∈ stf.L := by
      rw [hL]
      exact List.mem_cons_self h t
    have hhdom : h ∈ Gf.dom := (hLdom h).mp hhL
    have hnoprod : ∀ p, p ∉ Gf.inS h := by
      intro p hp
      have hpre := hinvf.orderOK h hhL p hp
      rw [hL] at hpre
      exact precedes_head_not (hL ▸ hinvf.nodupL) hpre
    have hkeys : h ∈ feed.map Prod.fst := dom_no_producer_mem_keys hFin hhdom hnoprod
    have hkind : kindOf g h = NodeKind.input := (hkin h hkeys).2
    rw [forward_pass_input_head stf.st hkind]
    rw [forward_pass_input_head stf.st hkind]

/-- Witness for C8 on the nn.py Add graph with a concrete kernel. -/
theorem forward_pass_idempotent_witness :
    (inputsClosed addProgram ∧ acyclicRank addProgram id ∧ nodupEdges addProgram ∧
      (∀ k ∈ nnFeed.map Prod.fst, k < addProgram.length ∧
        kindOf addProgram k = NodeKind.input)) ∧
    (∃ L s', (∀ fuel, sortFuel addProgram id nnFeed ≤ fuel →
        topological_sort addProgram nnFeed initState fuel = some (Except.ok (L, s'))) ∧
      ∀ outputNode,
        forward_pass idKernel addProgram L outputNode
            (forward_pass idKernel addProgram L outputNode s').2 =
          forward_pass idKernel addProgram L outputNode s') :=
  ⟨⟨by decide, by decide, by decide, by decide⟩,
    forward_pass_idempotent idKernel addProgram nnFeed initState id (by decide) (by decide)
      (by decide) (by decide)⟩

/-- C9: after any successful sequence of node constructions (each inbound
reference names an already-built node), node A's `outbound_nodes` contains B
exactly when B lists A among its `inbound_nodes`; and once both endpoints of
an edge have been constructed — i.e. in every construction prefix containing
both — the edge's multiplicity between them and the inbound lists are already
final: no dependency is added or removed afterwards. -/
theorem node_wiring_invariant (g : Graph) (recs : List NodeRec)
    (hwf : constructible g) (hok : construct g = Except.ok recs) :
    (∀ a, a < g.length → ∀ b, b < g.length →
      (b ∈ (recs.getD a emptyRec).outbound ↔ a ∈ (recs.getD b emptyRec).inbound)) ∧
    (∀ k, k ≤ g.length → ∃ recsK, construct (g.take k) = Except.ok recsK ∧
      ∀ a, a < k → ∀ b, b < k →
        ((recsK.getD a emptyRec).outbound).count b =
          ((recs.getD a emptyRec).outbound).count b ∧
        (recsK.getD a emptyRec).inbound = (recs.getD a emptyRec).inbound) := by
  have hnm : noMulG g := construct_ok_noMul g [] recs hok
  have hrecs : recs = buildRecs g := by
    rw [construct_eq g hwf hnm] at hok
    exact (Except.ok.inj hok).symm
  subst hrecs
  constructor
  · intro a ha b hb
    rw [buildRecs_getD ha, buildRecs_getD hb]
    show b ∈ outboundOf g a ↔ a ∈ inboundOf g b
    rw [mem_outboundOf]
    exact ⟨fun h => h.2, fun h => ⟨hb, h⟩⟩
  · intro k hk
    have hwfk := constructible_take hwf k
    have hnmk := noMulG_take hnm k
    refine ⟨buildRecs (g.take k), construct_eq _ hwfk hnmk, ?_⟩
    intro a ha b hb
    have htlen : (g.take k).length = k := length_take_of_le hk
    have hak : a < (g.take k).length := by omega
    have hag : a < g.length := by omega
    have hbg : b < g.length := by omega
    rw [buildRecs_getD hak, buildRecs_getD hag]
    constructor
    · show (outboundOf (g.take k) a).count b = (outboundOf g a).count b
      rw [count_outboundOf, count_outboundOf, htlen, if_pos hb, if_pos hbg,
        inboundOf_take hb]
    · show inboundOf (g.take k) a = inboundOf g a
      exact inboundOf_take ha

/-- Witness for C9 on the nn.py Add graph. -/
theorem node_wiring_invariant_witness :
    (constructible addProgram ∧ construct addProgram = Except.ok (buildRecs addProgram)) ∧
    ((∀ a, a < addProgram.length → ∀ b, b < addProgram.length →
      (b ∈ ((buildRecs addProgram).getD a emptyRec).outbound ↔
        a ∈ ((buildRecs addProgram).getD b emptyRec).inbound)) ∧
    (∀ k, k ≤ addProgram.length → ∃ recsK,
      construct (addProgram.take k) = Except.ok recsK ∧
      ∀ a, a < k → ∀ b, b < k →
        ((recsK.getD a emptyRec).outbound).count b =
          (((buildRecs addProgram).getD a emptyRec).outbound).count b ∧
        (recsK.getD a emptyRec).inbound =
          ((buildRecs addProgram).getD a emptyRec).inbound)) :=
  ⟨⟨by decide, by decide⟩,
    node_wiring_invariant addProgram (buildRecs addProgram) (by decide) (by decide)⟩

/-- C10: on an otherwise well-formed acyclic feed, (a) if some node's inbound
list repeats a fed source (for example `Add(x, x)`), `topological_sort`
raises `KeyError` while retiring edges — the duplicated edge was collapsed
into a set and the second `set.remove` faults; and (b) whenever
`topological_sort` completes without fault, every (producer, consumer) pair
among the reachable edges occurs at most once, i.e. every reachable node's
outbound list is duplicate-free. -/
theorem duplicate_edge_keyerror (g : Graph) (feed : List (Nat × ℚ)) (s : MFState)
    (rank : Nat → Nat)
    (hinputs : inputsClosed g) (hacyc : acyclicRank g rank)
    (hkin : ∀ k ∈ feed.map Prod.fst, k < g.length ∧ kindOf g k = NodeKind.input) :
    (∀ k ∈ feed.map Prod.fst, ∀ j, j < g.length → 2 ≤ (inboundOf g j).count k →
      ∀ fuel, sortFuel g rank feed ≤ fuel →
        topological_sort g feed s fuel = some (Except.error MFError.keyError)) ∧
    (∀ fuel L s', topological_sort g feed s fuel = some (Except.ok (L, s')) →
      ∀ x, Reach g (feed.map Prod.fst) x → (outboundOf g x).Nodup) := by
  have hkLt : ∀ k' ∈ feed.map Prod.fst, k' < g.length := fun k' h' => (hkin k' h').1
  constructor
  · intro k hk j hj hcount fuel hfuel
    have hdisc : (discover g fuel (feed.map Prod.fst) initDiscG).isSome :=
      discover_suff hacyc fuel _ initDiscG hkLt (le_trans (le_max_left ..) hfuel)
    obtain ⟨Gf, hGf⟩ := Option.isSome_iff_exists.mp hdisc
    have hFin : DFinal g (feed.map Prod.fst) Gf :=
      discover_sound g _ fuel _ initDiscG (DInv_init g _ hkLt) Gf hGf
    have hndk : ¬(outboundOf g k).Nodup := by
      intro hnd
      have hle := List.nodup_iff_count_le_one.mp hnd j
      rw [count_outboundOf, if_pos hj] at hle
      omega
    have hkahn : (kahnRun g feed fuel ⟨(feed.map Prod.fst).toFinset, Gf, [], s⟩).isSome := by
      apply kahnRun_suff
      calc kahnMeasure ⟨(feed.map Prod.fst).toFinset, Gf, [], s⟩
          ≤ (feed.map Prod.fst).length + totalIn g := kahnMeasure_init_le hFin s
      _ ≤ sortFuel g rank feed := le_max_right ..
      _ ≤ fuel := hfuel
    obtain ⟨r, hrr⟩ := Option.isSome_iff_exists.mp hkahn
    have hkS : k ∈ (feed.map Prod.fst).toFinset := List.mem_toFinset.mpr hk
    obtain ⟨e, rfl⟩ : ∃ e, r = Except.error e := by
      cases r with
      | error e => exact ⟨e, rfl⟩
      | ok rr => exact absurd hrr (kahnRun_no_ok g feed fuel _ k hkS hndk rr)
    have he : e = MFError.keyError := kahnRun_error g feed fuel _ e hrr
    subst he
    unfold topological_sort
    rw [hGf]
    exact hrr
  · intro fuel L s' hsort x hreach
    unfold topological_sort at hsort
    cases hGf : discover g fuel (feed.map Prod.fst) initDiscG with
    | none =>
      rw [hGf] at hsort
      cases hsort
    | some Gf =>
      rw [hGf] at hsort
      have hFin : DFinal g (feed.map Prod.fst) Gf :=
        discover_sound g _ fuel _ initDiscG (DInv_init g _ hkLt) Gf hGf
      have hinv0 := KInv_init s hFin hkin hinputs
      obtain ⟨stf, hLf, hstf, hSf, hinvf, hnods⟩ :=
        kahnRun_ok_inv hacyc hFin fuel _ L s' hinv0 hsort
      have hxL : x ∈ L := by
        rw [← hLf]
        exact (KInv_final hacyc hFin hinvf hSf x).mpr ((hFin.dom_iff x).mpr hreach)
      rcases hnods x hxL with hc | hnd
      · cases hc
      · exact hnd

/-- Witness for C10 on `x = Input(); Add(x, x)` with feed `{x ↦ 4}`. -/
theorem duplicate_edge_keyerror_witness :
    (inputsClosed dupProgram ∧ acyclicRank dupProgram id ∧
      (∀ k ∈ dupFeed.map Prod.fst, k < dupProgram.length ∧
        kindOf dupProgram k = NodeKind.input)) ∧
    ((∀ k ∈ dupFeed.map Prod.fst, ∀ j, j < dupProgram.length →
        2 ≤ (inboundOf dupProgram j).count k →
      ∀ fuel, sortFuel dupProgram id dupFeed ≤ fuel →
        topological_sort dupProgram dupFeed initState fuel =
          some (Except.error MFError.keyError)) ∧
    (∀ fuel L s', topological_sort dupProgram dupFeed initState fuel =
        some (Except.ok (L, s')) →
      ∀ x, Reach dupProgram (dupFeed.map Prod.fst) x →
        (outboundOf dupProgram x).Nodup)) :=
  ⟨⟨by decide, by decide, by decide⟩,
    duplicate_edge_keyerror dupProgram dupFeed initState id (by decide) (by decide)
      (by decide)⟩
